import Mathlib

/-!
Verification of the network-slice packet scheduler (sources: huawei.py,
huaweicarece.py, huawei2.py).

The Python sources are shallowly embedded: Python `float` values are modelled
as exact rationals (`ℚ`), machine integers as `ℤ`/`ℕ`, and fallible code
(Python raising `ZeroDivisionError` / `IndexError`) returns `Option`.  The
discrete-event loop `schedule_packets` of huaweicarece.py is embedded as a
fuel-indexed step function; huawei.py's inner admission `while` loop is
embedded separately (it is the variant whose cursor does not advance for an
infeasible packet).
-/

/-- Python `int(x)`: truncation toward zero. -/
def pyTrunc (q : ℚ) : ℤ := if q < 0 then -⌊-q⌋ else ⌊q⌋

/-- A schedule-log entry `(end_time, slice_id, packet_id)`. -/
abbrev Trip := ℤ × ℕ × ℕ

/-- `Packet` dataclass (huaweicarece.py; huawei.py's version simply lacks
`departure_time`, which it never reads). -/
structure Packet where
  slice_id : ℕ
  packet_id : ℕ
  arrival_time : ℤ
  size : ℤ
  processed : Bool := false
  departure_time : ℤ := 0
deriving DecidableEq

/-- `Slice` dataclass (huaweicarece.py; huawei.py's version lacks
`last_departure_time`). -/
structure Slice where
  slice_id : ℕ
  bandwidth : ℚ
  max_delay : ℤ
  packets : List Packet
  current_packet_idx : ℕ := 0
  last_departure_time : ℤ := 0
deriving DecidableEq

def Slice.has_more_packets (sl : Slice) : Bool :=
  sl.current_packet_idx < sl.packets.length

def Slice.peek_next_packet (sl : Slice) : Option Packet :=
  sl.packets.get? sl.current_packet_idx

/-- A ready-queue element: the tuple
`(-priority, arrival_time, slice_id, packet_id, packet)` pushed onto the
`heapq` heap; of the packet object itself only the fields read later
(arrival and size) are kept. -/
structure Entry where
  negp : ℚ
  arr : ℤ
  sid : ℕ
  pid : ℕ
  psize : ℤ
deriving DecidableEq

/-- A deferred packet: the `(slice_obj, packet)` pair kept in
`delayed_packets`; the slice reference is kept as its id and the packet as
its immutable fields. -/
structure DEntry where
  dsid : ℕ
  dpid : ℕ
  darr : ℤ
  dsize : ℤ
deriving DecidableEq

/-- Sequencing of fallible steps (`Option.bind`): a raised exception
propagates. -/
def obind {α β : Type} (x : Option α) (f : α → Option β) : Option β :=
  match x with
  | none => none
  | some a => f a

@[simp] lemma obind_none {α β : Type} (f : α → Option β) : obind none f = none := rfl

@[simp] lemma obind_some {α β : Type} (a : α) (f : α → Option β) :
    obind (some a) f = f a := rfl

/-- One step of a lexicographic comparison: strictly smaller first
component decides `true`, strictly larger decides `false`, ties defer to
the rest of the tuple. -/
def bstep {α : Type} [LinearOrder α] (x y : α) (r : Bool) : Bool :=
  if x < y then true else if y < x then false else r

/-- Python tuple `<=` on the first four heap-entry components
`(-priority, arrival_time, slice_id, packet_id)`: lexicographic. -/
def entryLE (a b : Entry) : Bool :=
  bstep a.negp b.negp (bstep a.arr b.arr (bstep a.sid b.sid (decide (a.pid ≤ b.pid))))

/-- Least element of `e :: l` in the heap order (first occurrence wins). -/
def minEntry : Entry → List Entry → Entry
  | e, [] => e
  | e, x :: xs => if entryLE e x then minEntry e xs else minEntry x xs

/-- `heapq.heappop`: returns the least entry in tuple order and the rest of
the heap.  Modelling the binary heap as a plain list is observationally
faithful because `heappop` always yields a minimal element and entries with
fully equal keys are equal records. -/
def popMin (l : List Entry) : Option (Entry × List Entry) :=
  match l with
  | [] => none
  | x :: xs => let m := minEntry x xs; some (m, l.erase m)

/-- `calculate_transmission_time` of huawei.py and huaweicarece.py:
`int((packet_size / self.port_bandwidth) * 1e9)`.  `B` is
`self.port_bandwidth` in bits/sec; a zero bandwidth raises
`ZeroDivisionError`, hence `none`. -/
def calculate_transmission_time (B : ℚ) (size : ℤ) : Option ℤ :=
  if B = 0 then none
  else some (pyTrunc ((size : ℚ) / B * 1000000000))

namespace huawei2

/-- huawei2.py `calculate_transmission_time`: explicit zero check, then
`int((packet_size / self.port_bandwidth) + 0.999999)` (no 1e9 factor). -/
def calculate_transmission_time (B : ℚ) (size : ℤ) : Option ℤ :=
  if B = 0 then none
  else some (pyTrunc ((size : ℚ) / B + 999999 / 1000000))

end huawei2

namespace carece

/-- `calculate_earliest_start_time` (huaweicarece.py): max of the packet's
arrival, the global last departure, and (when positive) the slice's last
departure. -/
def calculate_earliest_start_time (global_ldt : ℤ) (sl : Slice) (parr : ℤ) : ℤ :=
  let e := max parr global_ldt
  if 0 < sl.last_departure_time then max e sl.last_departure_time else e

/-- `can_schedule_packet` (huaweicarece.py): deadline check against
`max_delay * 1.1`, then a projected-bandwidth check against
`0.9 * 0.95 * guaranteed`. -/
def can_schedule_packet (B : ℚ) (sl : Slice) (parr psize start : ℤ) : Option Bool :=
  match calculate_transmission_time B psize with
  | none => none
  | some t =>
    let endt := start + t
    if ((endt - parr : ℤ) : ℚ) > (sl.max_delay : ℚ) * (11 / 10) then some false
    else
      let acc := sl.packets.foldl
        (fun (a : ℤ × ℤ) p =>
          if p.processed then (a.1 + p.size, min a.2 p.arrival_time) else a)
        (psize, parr)
      let duration := endt - acc.2
      if 0 < duration then
        let achieved := (acc.1 : ℚ) * 1000000000 / (duration : ℚ)
        let target := sl.bandwidth * 1000000000 * (95 / 100)
        if achieved < target * (9 / 10) then some false else some true
      else some true

/-- `calculate_packet_priority` (huaweicarece.py): weights 0.6 / 0.2 / 0.2,
fairness from the fraction of the slice's packets already processed.
`none` models the `ZeroDivisionError` raised when the transmission time is 0
(efficiency term) or the slice has no packets (processed ratio). -/
def calculate_packet_priority (B : ℚ) (sl : Slice) (parr psize ct : ℤ) : Option ℚ :=
  let ttd : ℤ := sl.max_delay - (ct - parr)
  let urgency : ℚ := 1 / ((max 1 ttd : ℤ) : ℚ)
  match calculate_transmission_time B psize with
  | none => none
  | some t =>
    if t = 0 then none
    else
      let efficiency : ℚ := (psize : ℚ) / (t : ℚ)
      if sl.packets.length = 0 then none
      else
        let processed_ratio : ℚ :=
          (sl.packets.countP (fun p => p.processed) : ℚ) / (sl.packets.length : ℚ)
        let fairness : ℚ := 1 - processed_ratio
        some ((6 / 10) * urgency + (2 / 10) * efficiency + (2 / 10) * fairness)

/-- The mutable scheduler state of huaweicarece.py's `schedule_packets`
(fields of `self` plus the loop-local `ready_packets` / `delayed_packets`). -/
structure SState where
  port_bandwidth : ℚ
  current_time : ℤ
  slices : List Slice
  scheduled_packets : List Trip
  last_departure_time : ℤ
  ready : List Entry
  delayed : List DEntry
deriving DecidableEq

/-- One slice's admission `while` loop (huaweicarece.py lines 99-110):
consume head packets that have arrived, pushing feasible ones onto the heap
and the rest onto `delayed_packets`; the cursor advances either way.  `k`
bounds the number of not-yet-admitted packets (`length - cursor`), which
strictly decreases each iteration. -/
def scanSliceAux (B : ℚ) (ct gldt : ℤ) :
    ℕ → Slice → List Entry → List DEntry → Option (Slice × List Entry × List DEntry)
  | 0, sl, ready, delayed => some (sl, ready, delayed)
  | k + 1, sl, ready, delayed =>
    match sl.packets.get? sl.current_packet_idx with
    | none => some (sl, ready, delayed)
    | some p =>
      if ct < p.arrival_time then some (sl, ready, delayed)
      else
        let start := calculate_earliest_start_time gldt sl p.arrival_time
        match can_schedule_packet B sl p.arrival_time p.size start with
        | none => none
        | some true =>
          match calculate_packet_priority B sl p.arrival_time p.size ct with
          | none => none
          | some pr =>
            scanSliceAux B ct gldt k
              { sl with current_packet_idx := sl.current_packet_idx + 1 }
              (ready ++ [⟨-pr, p.arrival_time, sl.slice_id, p.packet_id, p.size⟩])
              delayed
        | some false =>
          scanSliceAux B ct gldt k
            { sl with current_packet_idx := sl.current_packet_idx + 1 }
            ready
            (delayed ++ [⟨sl.slice_id, p.packet_id, p.arrival_time, p.size⟩])

/-- The admission scan over all slices (`for slice_obj in self.slices`). -/
def scanAll (B : ℚ) (ct gldt : ℤ) :
    List Slice → List Entry → List DEntry → Option (List Slice × List Entry × List DEntry)
  | [], ready, delayed => some ([], ready, delayed)
  | sl :: rest, ready, delayed =>
    match scanSliceAux B ct gldt (sl.packets.length - sl.current_packet_idx) sl ready delayed with
    | none => none
    | some (sl1, r1, d1) =>
      match scanAll B ct gldt rest r1 d1 with
      | none => none
      | some (rest1, r2, d2) => some (sl1 :: rest1, r2, d2)

/-- The deferred-packet rescan (huaweicarece.py lines 112-120): each delayed
packet is re-tested; feasible ones are pushed onto the heap, the rest are
kept (in order) as the new `delayed_packets`. -/
def rescan (B : ℚ) (ct gldt : ℤ) (slices : List Slice) :
    List DEntry → List Entry → List DEntry → Option (List Entry × List DEntry)
  | [], ready, kept => some (ready, kept)
  | d :: rest, ready, kept =>
    match slices.get? d.dsid with
    | none => none
    | some sl =>
      let start := calculate_earliest_start_time gldt sl d.darr
      match can_schedule_packet B sl d.darr d.dsize start with
      | none => none
      | some true =>
        match calculate_packet_priority B sl d.darr d.dsize ct with
        | none => none
        | some pr =>
          rescan B ct gldt slices rest
            (ready ++ [⟨-pr, d.darr, sl.slice_id, d.dpid, d.dsize⟩]) kept
      | some false => rescan B ct gldt slices rest ready (kept ++ [d])

/-- Phases A and B of one iteration: admission scan then deferred rescan. -/
def phaseAB (st : SState) : Option SState :=
  obind (scanAll st.port_bandwidth st.current_time st.last_departure_time
      st.slices st.ready st.delayed) fun a =>
    obind (rescan st.port_bandwidth st.current_time st.last_departure_time
        a.1 a.2.2 a.2.1 []) fun b =>
      some { st with slices := a.1, ready := b.1, delayed := b.2 }

/-- Set `processed`/`departure_time` of the packet at position `i`
(the popped packet object is mutated in place in Python). -/
def updAt : List Packet → ℕ → ℤ → List Packet
  | [], _, _ => []
  | p :: rest, 0, endt => { p with processed := true, departure_time := endt } :: rest
  | p :: rest, i + 1, endt => p :: updAt rest i endt

/-- The commit step (huaweicarece.py lines 135-144) applied to the popped
entry `e`: `start = max(current_time, arrival)`, `end = start + tt`, mark the
packet, update both departure times, advance the clock, append to the log. -/
def commitOn (st : SState) (e : Entry) (rest : List Entry) : Option SState :=
  obind (calculate_transmission_time st.port_bandwidth e.psize) fun t =>
    let start := max st.current_time e.arr
    let endt := start + t
    obind (st.slices.get? e.sid) fun sl =>
      let sl1 := { sl with packets := updAt sl.packets e.pid endt,
                           last_departure_time := endt }
      some { st with
        slices := st.slices.set e.sid sl1,
        scheduled_packets := st.scheduled_packets ++ [(endt, e.sid, e.pid)],
        current_time := endt,
        last_departure_time := endt,
        ready := rest }

/-- The idle advance (huaweicarece.py lines 125-132): jump to the minimum
arrival among the slices' next unadmitted packets, or advance by 1 when
there is none. -/
def idleAdvance (st : SState) : SState :=
  let cands := st.slices.filterMap
    (fun sl => (sl.packets.get? sl.current_packet_idx).map (·.arrival_time))
  match cands with
  | [] => { st with current_time := st.current_time + 1 }
  | a :: rest => { st with current_time := rest.foldl min a }

inductive Step where
  | cont : SState → Step
  | halt : SState → Step
deriving DecidableEq

/-- One iteration of the `while True` loop of `schedule_packets`. -/
def loopBody (st : SState) : Option Step :=
  obind (phaseAB st) fun st1 =>
    match popMin st1.ready with
    | none =>
      if st1.delayed.isEmpty && st1.slices.all (fun sl => !sl.has_more_packets)
      then some (.halt st1)
      else some (.cont (idleAdvance st1))
    | some (e, rest) =>
      obind (commitOn st1 e rest) fun st2 => some (.cont st2)

inductive RunRes where
  | finished : SState → RunRes
  | crashed : RunRes
  | fuelOut : SState → RunRes
deriving DecidableEq

/-- `schedule_packets`, fuel-indexed: `crashed` models an uncaught Python
exception, `fuelOut` a run that has not terminated within `fuel`
iterations. -/
def run : ℕ → SState → RunRes
  | 0, st => .fuelOut st
  | n + 1, st =>
    match loopBody st with
    | none => .crashed
    | some (.halt st1) => .finished st1
    | some (.cont st1) => run n st1

lemma run_cont_step (n : ℕ) (st st2 : SState) (h : loopBody st = some (.cont st2)) :
    run (n + 1) st = run n st2 := by
  simp only [run]
  rw [h]

lemma run_halt_step (n : ℕ) (st st2 : SState) (h : loopBody st = some (.halt st2)) :
    run (n + 1) st = .finished st2 := by
  simp only [run]
  rw [h]

def RunRes.isFuelOut : RunRes → Bool
  | .fuelOut _ => true
  | _ => false

def logOfRun : RunRes → List Trip
  | .finished st => st.scheduled_packets
  | _ => []

/-- Per-slice input as handed to `add_slice` by `main`. -/
structure SliceInput where
  bandwidth : ℚ
  max_delay : ℤ
  pkts : List (ℤ × ℤ)
deriving DecidableEq

/-- `add_slice` packet construction: `Packet(slice_id, i, arrival, size)`. -/
def mkPackets (sid : ℕ) : ℕ → List (ℤ × ℤ) → List Packet
  | _, [] => []
  | i, (a, s) :: rest =>
    { slice_id := sid, packet_id := i, arrival_time := a, size := s } :: mkPackets sid (i + 1) rest

def mkSlices : ℕ → List SliceInput → List Slice
  | _, [] => []
  | i, d :: rest =>
    { slice_id := i, bandwidth := d.bandwidth, max_delay := d.max_delay,
      packets := mkPackets i 0 d.pkts } :: mkSlices (i + 1) rest

/-- Scheduler construction from the input: `__init__` converts the port
bandwidth from Gbps to bits/sec; `add_slice` is called once per slice with
`slice_id = i`. -/
def initState (port_bw : ℚ) (data : List SliceInput) : SState :=
  { port_bandwidth := port_bw * 1000000000, current_time := 0,
    slices := mkSlices 0 data, scheduled_packets := [],
    last_departure_time := 0, ready := [], delayed := [] }

end carece

namespace huawei

/-- Inner fold of `calculate_slice_bandwidth_usage`: scan the schedule log
for entries of this packet and take the largest `end_time - arrival_time`. -/
def usageInner (sid : ℕ) (p : Packet) (sched : List Trip) (time : ℤ) : ℤ :=
  sched.foldl
    (fun t trip =>
      if trip.2.1 == sid && trip.2.2 == p.packet_id
      then max t (trip.1 - p.arrival_time) else t)
    time

/-- Outer loop of `calculate_slice_bandwidth_usage`: accumulate
`(total_bits, total_time)` over the slice's processed packets. -/
def usageFold (sid : ℕ) (sched : List Trip) : List Packet → ℤ × ℤ → ℤ × ℤ
  | [], acc => acc
  | p :: rest, acc =>
    if p.processed
    then usageFold sid sched rest (acc.1 + p.size, usageInner sid p sched acc.2)
    else usageFold sid sched rest acc

/-- `calculate_slice_bandwidth_usage` (huawei.py lines 74-91): achieved
bandwidth of the slice's committed packets over the guaranteed bandwidth,
clamped above by 1; `0` when `total_time == 0`.  `none` models the
`ZeroDivisionError` when the guaranteed bandwidth is zero. -/
def calculate_slice_bandwidth_usage (sl : Slice) (sched : List Trip) : Option ℚ :=
  let acc := usageFold sl.slice_id sched sl.packets (0, 0)
  if acc.2 = 0 then some 0
  else
    let current := (acc.1 : ℚ) * 1000000000 / (acc.2 : ℚ)
    let target := sl.bandwidth * 1000000000
    if target = 0 then none else some (min 1 (current / target))

/-- `calculate_packet_priority` (huawei.py lines 49-69): weights
0.4 / 0.3 / 0.3 over urgency, density and fairness.  `none` models the
`ZeroDivisionError` when the transmission time is 0 (density term), the
port bandwidth is 0, or the bandwidth-usage computation divides by zero. -/
def calculate_packet_priority (B : ℚ) (sl : Slice) (p : Packet) (ct : ℤ)
    (sched : List Trip) : Option ℚ :=
  let ttd : ℤ := sl.max_delay - (ct - p.arrival_time)
  match calculate_transmission_time B p.size with
  | none => none
  | some t =>
    if t = 0 then none
    else
      let density : ℚ := (p.size : ℚ) / (t : ℚ)
      match calculate_slice_bandwidth_usage sl sched with
      | none => none
      | some usage =>
        some ((4 / 10) * (1 / ((max 1 ttd : ℤ) : ℚ)) + (3 / 10) * density
          + (3 / 10) * (1 - usage))

inductive HwRes where
  | ok : Slice → List Entry → List (ℚ × Packet) → HwRes
  | crash : HwRes
  | fuel : HwRes
deriving DecidableEq

/-- The inner admission `while` loop of huawei.py's `schedule_packets`
(lines 99-120) for one slice: while the head packet has arrived and is the
next in order, compute its priority, then either push it onto the heap and
advance the cursor (feasible case) or append it to `ignored_packets`
*without advancing the cursor* (infeasible case). -/
def hwScanAux (B : ℚ) (ct : ℤ) (sched : List Trip) :
    ℕ → Slice → List Entry → List (ℚ × Packet) → HwRes
  | 0, _, _, _ => .fuel
  | k + 1, sl, ready, ignored =>
    match sl.packets.get? sl.current_packet_idx with
    | none => .ok sl ready ignored
    | some p =>
      if p.arrival_time ≤ ct ∧ p.packet_id = sl.current_packet_idx then
        match calculate_packet_priority B sl p ct sched with
        | none => .crash
        | some pr =>
          match calculate_transmission_time B p.size with
          | none => .crash
          | some t =>
            if p.arrival_time ≤ ct ∧ ct - p.arrival_time + t ≤ sl.max_delay then
              hwScanAux B ct sched k
                { sl with current_packet_idx := sl.current_packet_idx + 1 }
                (ready ++ [⟨-pr, p.arrival_time, p.slice_id, p.packet_id, p.size⟩])
                ignored
            else hwScanAux B ct sched k sl ready (ignored ++ [(pr, p)])
      else .ok sl ready ignored

/-- The `packet_times` dictionary of `verify_constraints`: built by
iterating the schedule log and overwriting, so the last matching entry
wins. -/
def ptLookup (sched : List Trip) (sid pid : ℕ) : Option ℤ :=
  ((sched.filter (fun t => t.2.1 == sid && t.2.2 == pid)).map (fun t => t.1)).getLast?

/-- The per-slice ordering check of `verify_constraints` (huawei.py lines
174-182): every index `0..count-1` has a committed end time, each end time
is at least the packet's arrival, and end times are nondecreasing in
`packet_id` order. -/
def orderingOkAux (sid : ℕ) (sched : List Trip) : List Packet → ℕ → ℤ → Bool
  | [], _, _ => true
  | p :: rest, i, lastEnd =>
    match ptLookup sched sid i with
    | none => false
    | some e =>
      !(e < p.arrival_time) && !(e < lastEnd) && orderingOkAux sid sched rest (i + 1) e

def orderingOk (sl : Slice) (sched : List Trip) : Bool :=
  orderingOkAux sl.slice_id sched sl.packets 0 0

/-- The per-slice bandwidth check of `verify_constraints` (huawei.py lines
184-202); with no packets `first_arrival` stays `inf`, so the duration test
fails and the check passes. -/
def bandwidthOk (sl : Slice) (sched : List Trip) : Bool :=
  let total_bits := sl.packets.foldl (fun (a : ℤ) p => a + p.size) 0
  let last_departure :=
    sched.foldl (fun a t => if t.2.1 == sl.slice_id then max a t.1 else a) 0
  match sl.packets with
  | [] => true
  | p0 :: rest =>
    let first_arrival := rest.foldl (fun a p => min a p.arrival_time) p0.arrival_time
    let duration := last_departure - first_arrival
    if 0 < duration then
      !((total_bits : ℚ) * 1000000000 / (duration : ℚ)
        < (95 / 100) * sl.bandwidth * 1000000000)
    else true

/-- `verify_constraints` (huawei.py lines 164-204). -/
def verify_constraints (slices : List Slice) (sched : List Trip) : Bool :=
  slices.all (fun sl => orderingOk sl sched) && slices.all (fun sl => bandwidthOk sl sched)

/-- Innermost fold of `get_max_delay`: largest `end_time - arrival_time`
over this packet's entries in the schedule log. -/
def pktDelayFold (sid : ℕ) (p : Packet) (sched : List Trip) (acc : ℤ) : ℤ :=
  sched.foldl
    (fun a t =>
      if t.2.1 == sid && t.2.2 == p.packet_id
      then max a (t.1 - p.arrival_time) else a)
    acc

/-- `get_max_delay` (huawei.py lines 206-214). -/
def get_max_delay (slices : List Slice) (sched : List Trip) : ℤ :=
  slices.foldl
    (fun a sl => sl.packets.foldl (fun b p => pktDelayFold sl.slice_id p sched b) a) 0

/-- The per-slice `slice_max_delay` computed inside `get_score`. -/
def slice_max_delay (sl : Slice) (sched : List Trip) : ℤ :=
  sl.packets.foldl (fun b p => pktDelayFold sl.slice_id p sched b) 0

/-- `get_score` (huawei.py lines 216-235). -/
def get_score (slices : List Slice) (sched : List Trip) : ℚ :=
  if !verify_constraints slices sched then 0
  else
    let md := get_max_delay slices sched
    if md = 0 then 0
    else
      let satisfied := slices.countP (fun sl => decide (slice_max_delay sl sched ≤ sl.max_delay))
      (satisfied : ℚ) / (slices.length : ℚ) + 10000 / (md : ℚ)

end huawei

namespace carece

/-- Per-slice fold of `get_score` (huaweicarece.py lines 150-157):
largest `departure_time - arrival_time` over the slice's packets. -/
def sliceDelayFold (sl : Slice) : ℤ :=
  sl.packets.foldl (fun a p => max a (p.departure_time - p.arrival_time)) 0

/-- `get_score` (huaweicarece.py lines 145-160): 0 when fewer packets are
scheduled than were submitted or some packet is unprocessed; otherwise
`satisfied/len + 10000/max_delay`.  `none` models the `ZeroDivisionError`
raised when the slice list is empty or the maximum delay is 0. -/
def get_score (slices : List Slice) (sched : List Trip) (total : ℕ) : Option ℚ :=
  if sched.length < total then some 0
  else if slices.any (fun sl => sl.packets.any (fun p => !p.processed)) then some 0
  else
    let md := slices.foldl (fun a sl => max a (sliceDelayFold sl)) 0
    let satisfied := slices.countP (fun sl => decide (sliceDelayFold sl ≤ sl.max_delay))
    if slices.length = 0 then none
    else if md = 0 then none
    else some ((satisfied : ℚ) / (slices.length : ℚ) + 10000 / (md : ℚ))

end carece

/-- The `(slice_id, packet_id)` pair of a schedule-log entry. -/
def tripPair (t : Trip) : ℕ × ℕ := (t.2.1, t.2.2)

namespace huawei

/-- The middle fold of `get_max_delay` / `get_score`, over a packet list. -/
def packetsDelayFold (sid : ℕ) (sched : List Trip) (ps : List Packet) (acc : ℤ) : ℤ :=
  ps.foldl (fun b p => pktDelayFold sid p sched b) acc

/-- The outer fold of `get_max_delay`, over the slice list. -/
def slicesDelayFold (sched : List Trip) (slices : List Slice) (acc : ℤ) : ℤ :=
  slices.foldl (fun a sl => packetsDelayFold sl.slice_id sched sl.packets a) acc

end huawei

/-- Total number of packets submitted to the scheduler. -/
def totalPackets (slices : List Slice) : ℕ :=
  (slices.map (fun sl => sl.packets.length)).sum

/-- All `(slice_id, packet_id)` pairs the input defines. -/
def validPairs : List Slice → List (ℕ × ℕ)
  | [] => []
  | sl :: rest =>
    (List.range sl.packets.length).map (fun j => (sl.slice_id, j)) ++ validPairs rest

/-- The claim's per-slice criterion: every committed packet of the slice
meets the slice's `max_delay`. -/
def specWithin (sl : Slice) (sched : List Trip) : Prop :=
  ∀ t ∈ sched, t.2.1 = sl.slice_id →
    ∀ p ∈ sl.packets, p.packet_id = t.2.2 →
      t.1 - p.arrival_time ≤ sl.max_delay

instance (sl : Slice) (sched : List Trip) : Decidable (specWithin sl sched) := by
  unfold specWithin
  infer_instance

/-- The `(slice_id, packet_id)` key of a ready-queue entry. -/
def Entry.pair (e : Entry) : ℕ × ℕ := (e.sid, e.pid)

/-- The `(slice_id, packet_id)` key of a deferred packet. -/
def DEntry.pair (d : DEntry) : ℕ × ℕ := (d.dsid, d.dpid)

namespace carece

/-- All `(slice_id, packet_id)` keys currently held by the ReadyQueue, the
DeferralSet and the schedule log. -/
def pairsOf (st : SState) : List (ℕ × ℕ) :=
  st.ready.map Entry.pair ++ st.delayed.map DEntry.pair ++
    st.scheduled_packets.map tripPair

/-- The admission cursor of slice `i` (0 when out of range). -/
def cursorAt (st : SState) (i : ℕ) : ℕ :=
  ((st.slices.get? i).map Slice.current_packet_idx).getD 0

/-- Well-formedness of the slice stored at position `i`: its id is `i`,
its cursor is in range, and its packets carry their position as
`packet_id`, their owner's id, and a nonnegative size. -/
def SliceOK (i : ℕ) (sl : Slice) : Prop :=
  sl.slice_id = i ∧ sl.current_packet_idx ≤ sl.packets.length ∧
  ∀ (j : ℕ) (h : j < sl.packets.length),
    (sl.packets.get ⟨j, h⟩).packet_id = j ∧
    (sl.packets.get ⟨j, h⟩).slice_id = i ∧
    0 ≤ (sl.packets.get ⟨j, h⟩).size

/-- A queued key `(sid, pid)` is consistent when its copied arrival time
and size are those of the packet it references. -/
def ConsEntry (slices : List Slice) (sid pid : ℕ) (arr size : ℤ) : Prop :=
  ∃ sl, slices.get? sid = some sl ∧ ∃ h : pid < sl.packets.length,
    (sl.packets.get ⟨pid, h⟩).arrival_time = arr ∧
    (sl.packets.get ⟨pid, h⟩).size = size

/-- The scheduler-state invariant: positive port bandwidth, well-formed
slices, per-slice departure times never ahead of the clock, every admitted
key held exactly once across ReadyQueue ∪ DeferralSet ∪ log (and only keys
below the cursor), and queue entries consistent with their packets. -/
def Inv (st : SState) : Prop :=
  0 < st.port_bandwidth ∧
  (∀ (i : ℕ) (h : i < st.slices.length), SliceOK i (st.slices.get ⟨i, h⟩)) ∧
  (∀ (i : ℕ) (h : i < st.slices.length),
    (st.slices.get ⟨i, h⟩).last_departure_time ≤ st.current_time) ∧
  (∀ pr : ℕ × ℕ, (pairsOf st).count pr =
    if pr.1 < st.slices.length ∧ pr.2 < cursorAt st pr.1 then 1 else 0) ∧
  (∀ e ∈ st.ready, ConsEntry st.slices e.sid e.pid e.arr e.psize) ∧
  (∀ d ∈ st.delayed, ConsEntry st.slices d.dsid d.dpid d.darr d.dsize)

/-- What the admission scan does to one slice: fields preserved, the cursor
only advances (staying in range), and afterwards the head packet — if any —
has not yet arrived. -/
def SliceRel (ct : ℤ) (sl sl2 : Slice) : Prop :=
  sl2.slice_id = sl.slice_id ∧ sl2.packets = sl.packets ∧
  sl2.bandwidth = sl.bandwidth ∧ sl2.max_delay = sl.max_delay ∧
  sl2.last_departure_time = sl.last_departure_time ∧
  sl.current_packet_idx ≤ sl2.current_packet_idx ∧
  (sl.current_packet_idx ≤ sl.packets.length →
    sl2.current_packet_idx ≤ sl.packets.length) ∧
  (∀ h : sl2.current_packet_idx < sl.packets.length,
    ct < (sl.packets.get ⟨sl2.current_packet_idx, h⟩).arrival_time)

/-- One loop iteration that continues. -/
def StepsTo (a b : SState) : Prop := loopBody a = some (.cont b)

/-- Reachability along continuing loop iterations. -/
def Reaches (a b : SState) : Prop := Relation.ReflTransGen StepsTo a b

/-- The packet counts of the slices, used to relate a final state to the
input. -/
def sliceLens (st : SState) : List ℕ := st.slices.map (fun sl => sl.packets.length)

end carece

/-! ## Fixtures used in witnesses and counterexamples -/

/-- A feasible 10-bit packet arriving at time 0. -/
def wPacket : Packet := { slice_id := 0, packet_id := 0, arrival_time := 0, size := 10 }

/-- A slice owning `wPacket`: 1 Gbps guarantee, 10 ns latency bound. -/
def wSlice : Slice :=
  { slice_id := 0, bandwidth := 1, max_delay := 10, packets := [wPacket] }

/-- A 1-bit packet: at 2 Gbps its truncated transmission time is 0 ns. -/
def tinyPacket : Packet := { slice_id := 0, packet_id := 0, arrival_time := 0, size := 1 }

/-! ## Basic lemmas about the embedded functions -/

lemma pyTrunc_of_nonneg (q : ℚ) (h : 0 ≤ q) : pyTrunc q = ⌊q⌋ := by
  unfold pyTrunc
  rw [if_neg (not_lt.mpr h)]

namespace huawei

lemma usageInner_ge (sid : ℕ) (p : Packet) (sched : List Trip) :
    ∀ time : ℤ, time ≤ usageInner sid p sched time := by
  unfold usageInner
  induction sched with
  | nil => intro time; simp
  | cons hd tl ih =>
    intro time
    simp only [List.foldl_cons]
    refine le_trans ?_ (ih _)
    split
    · exact le_max_left _ _
    · exact le_refl _

lemma usageFold_fst_nonneg (sid : ℕ) (sched : List Trip) :
    ∀ (ps : List Packet) (acc : ℤ × ℤ), (∀ q ∈ ps, 0 ≤ q.size) → 0 ≤ acc.1 →
      0 ≤ (usageFold sid sched ps acc).1 := by
  intro ps
  induction ps with
  | nil => intro acc _ h; simpa [usageFold] using h
  | cons p rest ih =>
    intro acc hsz h
    unfold usageFold
    split
    · exact ih _ (fun q hq => hsz q (List.mem_cons_of_mem _ hq))
        (add_nonneg h (hsz p (List.mem_cons_self _ _)))
    · exact ih _ (fun q hq => hsz q (List.mem_cons_of_mem _ hq)) h

lemma usageFold_snd_le (sid : ℕ) (sched : List Trip) :
    ∀ (ps : List Packet) (acc : ℤ × ℤ), acc.2 ≤ (usageFold sid sched ps acc).2 := by
  intro ps
  induction ps with
  | nil => intro acc; simp [usageFold]
  | cons p rest ih =>
    intro acc
    unfold usageFold
    split
    · exact le_trans (usageInner_ge sid p sched acc.2) (ih _)
    · exact ih _

lemma usageFold_of_unprocessed (sid : ℕ) (sched : List Trip) :
    ∀ (ps : List Packet) (acc : ℤ × ℤ), (∀ q ∈ ps, q.processed = false) →
      usageFold sid sched ps acc = acc := by
  intro ps
  induction ps with
  | nil => intro acc _; rfl
  | cons p rest ih =>
    intro acc hp
    unfold usageFold
    rw [if_neg (by simp [hp p (List.mem_cons_self _ _)])]
    exact ih _ (fun q hq => hp q (List.mem_cons_of_mem _ hq))

end huawei

/-! ## C2 -/

/-- C2 counterexample: at port bandwidth 3 Gbps a 1-bit packet gets
transmission time `int(1/3) = 0`, while the claimed ceiling is 1 — the code
truncates. -/
theorem C2_counterexample :
    calculate_transmission_time (3 * 1000000000) 1 = some 0 ∧
    ⌈((1 : ℚ) / (3 * 1000000000)) * 1000000000⌉ = 1 ∧ (0 : ℤ) ≠ 1 := by
  refine ⟨by norm_num [calculate_transmission_time, pyTrunc], ?_, by decide⟩
  rw [show ((1 : ℚ) / (3 * 1000000000)) * 1000000000 = 1 / 3 by norm_num]
  rw [Int.ceil_eq_iff]
  norm_num

/-- C2 (amended): for positive port bandwidth and nonnegative size,
`transmissionTime(s)` equals `floor(s / B * 1e9)` — truncation, not the
claimed ceiling. -/
theorem C2_transmission_truncates (B : ℚ) (s : ℤ) (hB : 0 < B) (hs : 0 ≤ s) :
    calculate_transmission_time B s = some ⌊(s : ℚ) / B * 1000000000⌋ := by
  unfold calculate_transmission_time
  rw [if_neg (ne_of_gt hB), pyTrunc_of_nonneg]
  exact mul_nonneg (div_nonneg (by exact_mod_cast hs) hB.le) (by norm_num)

/-- Witness for C2: evaluation at bandwidth 1 Gbps, size 2000. -/
theorem C2_transmission_truncates_witness :
    calculate_transmission_time 1000000000 2000 =
      some ⌊((2000 : ℤ) : ℚ) / 1000000000 * 1000000000⌋ :=
  C2_transmission_truncates 1000000000 2000 (by norm_num) (by decide)

/-! ## C8 -/

/-- C8 counterexample: with positive port bandwidth (2 Gbps) and a packet of
positive size (1 bit), the transmission time is 0 — not positive — and the
priority computation's efficiency term divides by zero (raises). -/
theorem C8_counterexample :
    (0 : ℚ) < 2 * 1000000000 ∧ (0 : ℤ) < tinyPacket.size ∧
    calculate_transmission_time (2 * 1000000000) tinyPacket.size = some 0 ∧
    huawei.calculate_packet_priority (2 * 1000000000) wSlice tinyPacket 0 [] = none := by
  refine ⟨by norm_num, by decide, ?_, ?_⟩
  · norm_num [calculate_transmission_time, pyTrunc, tinyPacket]
  · norm_num [huawei.calculate_packet_priority, calculate_transmission_time, pyTrunc,
      tinyPacket]

/-- C8 (amended): only huawei2.py rejects a zero port bandwidth before
dividing (its transmission-time computation fails exactly when `B = 0`);
in huawei.py and huaweicarece.py a zero transmission time makes the
priority computation divide by zero. -/
theorem C8_divzero_guards :
    (∀ (B : ℚ) (s : ℤ), huawei2.calculate_transmission_time B s = none ↔ B = 0) ∧
    (∀ (B : ℚ) (sl : Slice) (p : Packet) (ct : ℤ) (sched : List Trip),
      calculate_transmission_time B p.size = some 0 →
      huawei.calculate_packet_priority B sl p ct sched = none) ∧
    (∀ (B : ℚ) (sl : Slice) (parr psize ct : ℤ),
      calculate_transmission_time B psize = some 0 →
      carece.calculate_packet_priority B sl parr psize ct = none) := by
  refine ⟨?_, ?_, ?_⟩
  · intro B s
    unfold huawei2.calculate_transmission_time
    split
    · simpa
    · simpa
  · intro B sl p ct sched h
    unfold huawei.calculate_packet_priority
    rw [h]
    simp
  · intro B sl parr psize ct h
    unfold carece.calculate_packet_priority
    rw [h]
    simp

/-- Witness for C8: the guards evaluated at concrete inputs. -/
theorem C8_divzero_guards_witness :
    huawei2.calculate_transmission_time 0 5 = none ∧
    huawei.calculate_packet_priority (2 * 1000000000) wSlice tinyPacket 1 [] = none ∧
    carece.calculate_packet_priority (2 * 1000000000) wSlice 0 1 1 = none :=
  ⟨(C8_divzero_guards.1 0 5).mpr rfl,
   C8_divzero_guards.2.1 _ wSlice tinyPacket 1 []
     (by norm_num [calculate_transmission_time, pyTrunc, tinyPacket]),
   C8_divzero_guards.2.2 _ wSlice 0 1 1
     (by norm_num [calculate_transmission_time, pyTrunc])⟩

/-! ## C7 -/

/-- C7 counterexample: on the same packet (10 bits, arrival 0, slice bound
10 ns, 1 Gbps port, nothing committed) huaweicarece.py's evaluator returns
23/50, while the claimed formula
`0.4*(1/max(1,slack)) + 0.3*(size/tt) + 0.3*(1-usage)` gives 16/25 (the
value huawei.py returns) — the claim does not hold of every evaluation. -/
theorem C7_counterexample :
    carece.calculate_packet_priority 1000000000 wSlice 0 10 0 = some (23 / 50) ∧
    huawei.calculate_packet_priority 1000000000 wSlice wPacket 0 [] = some (16 / 25) ∧
    (4 / 10 : ℚ) * (1 / max 1 ((10 : ℚ) - (0 - 0))) + (3 / 10) * (10 / 10)
      + (3 / 10) * (1 - 0) = 16 / 25 ∧
    (23 / 50 : ℚ) ≠ 16 / 25 := by
  refine ⟨?_, ?_, by norm_num, by norm_num⟩
  · norm_num [carece.calculate_packet_priority, calculate_transmission_time, pyTrunc,
      wSlice, wPacket]
  · norm_num [huawei.calculate_packet_priority, huawei.calculate_slice_bandwidth_usage,
      huawei.usageFold, calculate_transmission_time, pyTrunc, wSlice, wPacket]

/-- C7 (amended): huawei.py's evaluator computes exactly the claimed
formula — weights 0.4/0.3/0.3, urgency `1/max(1, maxDelay - (now-arrival))`,
efficiency `size/transmissionTime`, and fairness `1 - u` where the
bandwidth-usage ratio `u` lies in `[0,1]` and is 0 when the slice has no
committed packets.  (huaweicarece.py instead uses weights 0.6/0.2/0.2 with
fairness from the processed-packet fraction, see the counterexample.) -/
theorem C7_priority_formula (B : ℚ) (sl : Slice) (p : Packet) (ct : ℤ)
    (sched : List Trip) (t : ℤ)
    (hbw : 0 < sl.bandwidth) (hsz : ∀ q ∈ sl.packets, 0 ≤ q.size)
    (ht : calculate_transmission_time B p.size = some t) (ht0 : t ≠ 0) :
    ∃ u : ℚ,
      huawei.calculate_slice_bandwidth_usage sl sched = some u ∧
      0 ≤ u ∧ u ≤ 1 ∧
      ((∀ q ∈ sl.packets, q.processed = false) → u = 0) ∧
      huawei.calculate_packet_priority B sl p ct sched =
        some ((4 / 10) * (1 / ((max 1 (sl.max_delay - (ct - p.arrival_time)) : ℤ) : ℚ))
          + (3 / 10) * ((p.size : ℚ) / (t : ℚ)) + (3 / 10) * (1 - u)) := by
  have htgt : sl.bandwidth * 1000000000 ≠ 0 := by positivity
  have main : ∃ u : ℚ,
      huawei.calculate_slice_bandwidth_usage sl sched = some u ∧
      0 ≤ u ∧ u ≤ 1 ∧ ((∀ q ∈ sl.packets, q.processed = false) → u = 0) := by
    unfold huawei.calculate_slice_bandwidth_usage
    set acc := huawei.usageFold sl.slice_id sched sl.packets (0, 0) with hacc
    by_cases h2 : acc.2 = 0
    · exact ⟨0, by simp [h2], le_refl 0, by norm_num, fun _ => rfl⟩
    · have hsnd : (0 : ℤ) ≤ acc.2 :=
        huawei.usageFold_snd_le sl.slice_id sched sl.packets (0, 0)
      have hpos2 : 0 < (acc.2 : ℚ) := by
        have : (0 : ℤ) < acc.2 := lt_of_le_of_ne hsnd (Ne.symm h2)
        exact_mod_cast this
      have h1 : (0 : ℤ) ≤ acc.1 :=
        huawei.usageFold_fst_nonneg sl.slice_id sched sl.packets (0, 0) hsz (le_refl 0)
      refine ⟨min 1 ((acc.1 : ℚ) * 1000000000 / (acc.2 : ℚ) / (sl.bandwidth * 1000000000)),
        by simp only [if_neg h2, if_neg htgt], ?_, min_le_left _ _, ?_⟩
      · apply le_min (by norm_num)
        apply div_nonneg
        · apply div_nonneg _ hpos2.le
          have : (0 : ℚ) ≤ (acc.1 : ℚ) := by exact_mod_cast h1
          positivity
        · positivity
      · intro hnone
        exfalso
        apply h2
        rw [hacc, huawei.usageFold_of_unprocessed sl.slice_id sched sl.packets (0, 0) hnone]
  obtain ⟨u, hu, hu0, hu1, hunone⟩ := main
  refine ⟨u, hu, hu0, hu1, hunone, ?_⟩
  unfold huawei.calculate_packet_priority
  rw [ht]
  simp only [if_neg ht0, hu]

/-- Witness for C7: the formula instantiated on `wSlice`/`wPacket`. -/
theorem C7_priority_formula_witness :
    ∃ u : ℚ,
      huawei.calculate_slice_bandwidth_usage wSlice [] = some u ∧
      0 ≤ u ∧ u ≤ 1 ∧
      ((∀ q ∈ wSlice.packets, q.processed = false) → u = 0) ∧
      huawei.calculate_packet_priority 1000000000 wSlice wPacket 3 [] =
        some ((4 / 10) * (1 / ((max 1 (wSlice.max_delay - (3 - wPacket.arrival_time)) : ℤ) : ℚ))
          + (3 / 10) * ((wPacket.size : ℚ) / ((10 : ℤ) : ℚ)) + (3 / 10) * (1 - u)) :=
  C7_priority_formula 1000000000 wSlice wPacket 3 [] 10 (by norm_num [wSlice])
    (by decide) (by norm_num [calculate_transmission_time, pyTrunc, wPacket]) (by decide)

/-! ## C9 -/

lemma bstep_refl {α : Type} [LinearOrder α] (x : α) (r : Bool) : bstep x x r = r := by
  simp [bstep]

lemma bstep_eq_true_iff {α : Type} [LinearOrder α] (x y : α) (r : Bool) :
    bstep x y r = true ↔ x < y ∨ (x = y ∧ r = true) := by
  unfold bstep
  rcases lt_trichotomy x y with h | h | h
  · simp [h]
  · subst h
    simp [lt_irrefl]
  · rw [if_neg (lt_asymm h), if_pos h]
    constructor
    · intro hf
      exact absurd hf (by simp)
    · rintro (hlt | ⟨rfl, _⟩)
      · exact absurd hlt (lt_asymm h)
      · exact absurd h (lt_irrefl _)

lemma bstep_trans {α : Type} [LinearOrder α] (x y z : α) (r s t : Bool)
    (h : r = true → s = true → t = true) :
    bstep x y r = true → bstep y z s = true → bstep x z t = true := by
  rw [bstep_eq_true_iff, bstep_eq_true_iff, bstep_eq_true_iff]
  rintro (hxy | ⟨rfl, hr⟩) (hyz | ⟨rfl, hs⟩)
  · exact Or.inl (lt_trans hxy hyz)
  · exact Or.inl hxy
  · exact Or.inl hyz
  · exact Or.inr ⟨rfl, h hr hs⟩

lemma bstep_total {α : Type} [LinearOrder α] (x y : α) (r s : Bool)
    (h : r = true ∨ s = true) : bstep x y r = true ∨ bstep y x s = true := by
  rw [bstep_eq_true_iff, bstep_eq_true_iff]
  rcases lt_trichotomy x y with h1 | h1 | h1
  · exact Or.inl (Or.inl h1)
  · subst h1
    rcases h with hr | hs
    · exact Or.inl (Or.inr ⟨rfl, hr⟩)
    · exact Or.inr (Or.inr ⟨rfl, hs⟩)
  · exact Or.inr (Or.inl h1)

lemma entryLE_refl (a : Entry) : entryLE a a = true := by
  simp [entryLE, bstep_refl]

lemma entryLE_total (a b : Entry) : entryLE a b = true ∨ entryLE b a = true := by
  unfold entryLE
  apply bstep_total
  apply bstep_total
  apply bstep_total
  simp [Nat.le_total]

lemma entryLE_trans (a b c : Entry) (hab : entryLE a b = true)
    (hbc : entryLE b c = true) : entryLE a c = true := by
  unfold entryLE at *
  refine bstep_trans _ _ _ _ _ _ ?_ hab hbc
  intro h1 h2
  refine bstep_trans _ _ _ _ _ _ ?_ h1 h2
  intro h3 h4
  refine bstep_trans _ _ _ _ _ _ ?_ h3 h4
  intro h5 h6
  simp only [decide_eq_true_eq] at h5 h6 ⊢
  omega

lemma minEntry_mem (e : Entry) (l : List Entry) : minEntry e l ∈ e :: l := by
  induction l generalizing e with
  | nil => simp [minEntry]
  | cons x xs ih =>
    unfold minEntry
    split
    · rcases List.mem_cons.mp (ih e) with h | h
      · simp [h]
      · simp [h]
    · rcases List.mem_cons.mp (ih x) with h | h
      · simp [h]
      · simp [h]

lemma minEntry_le (e : Entry) (l : List Entry) :
    entryLE (minEntry e l) e = true ∧ ∀ f ∈ l, entryLE (minEntry e l) f = true := by
  induction l generalizing e with
  | nil => exact ⟨entryLE_refl e, by simp⟩
  | cons x xs ih =>
    unfold minEntry
    split
    · rename_i hex
      obtain ⟨h1, h2⟩ := ih e
      refine ⟨h1, ?_⟩
      intro f hf
      rcases List.mem_cons.mp hf with rfl | hf
      · exact entryLE_trans _ _ _ h1 hex
      · exact h2 f hf
    · rename_i hex
      obtain ⟨h1, h2⟩ := ih x
      have hxe : entryLE x e = true := by
        rcases entryLE_total e x with h | h
        · exact absurd h hex
        · exact h
      refine ⟨entryLE_trans _ _ _ h1 hxe, ?_⟩
      intro f hf
      rcases List.mem_cons.mp hf with rfl | hf
      · exact h1
      · exact h2 f hf

/-- C9: determinism and tie-breaking.  (a) Two runs of `schedule_packets` on
the same constructed input yield the same schedule log.  (b) The popped
heap entry is minimal in the tuple order `(-priority, arrivalTime, sliceId,
packetId)` — among equal priorities the earliest arrival wins, then the
lowest slice id, then the lowest packet id. -/
theorem C9_determinism_and_tiebreak :
    (∀ (bw : ℚ) (data : List carece.SliceInput) (n : ℕ) (st st2 : carece.SState),
      carece.run n (carece.initState bw data) = .finished st →
      carece.run n (carece.initState bw data) = .finished st2 →
      st.scheduled_packets = st2.scheduled_packets) ∧
    (∀ (l : List Entry) (e : Entry) (rest : List Entry),
      popMin l = some (e, rest) →
      e ∈ l ∧ rest = l.erase e ∧ ∀ f ∈ l, entryLE e f = true) := by
  constructor
  · intro bw data n st st2 h1 h2
    rw [h1] at h2
    cases h2
    rfl
  · intro l e rest h
    match l with
    | x :: xs =>
      simp only [popMin, Option.some.injEq, Prod.mk.injEq] at h
      obtain ⟨he, hrest⟩ := h
      subst he
      subst hrest
      refine ⟨minEntry_mem x xs, rfl, ?_⟩
      intro f hf
      rcases List.mem_cons.mp hf with rfl | hf
      · exact (minEntry_le f xs).1
      · exact (minEntry_le x xs).2 f hf

/-! ## C1 -/

/-- The infeasible input: port 1 Gbps; one slice with `max_delay` 1000 ns
and a single packet of 2000 bits arriving at 0, whose transmission alone
takes 2000 ns > 1000 ns — its deadline can never be met. -/
def c1Init : carece.SState := carece.initState 1 [⟨1, 1000, [(0, 2000)]⟩]

/-- The loop state of the huaweicarece.py run on `c1Init` after the packet
has been deferred: clock `k`, cursor exhausted, the infeasible packet
forever in `delayed_packets`. -/
def c1Loop (k : ℤ) : carece.SState :=
  ⟨1000000000, k, [⟨0, 1, 1000, [⟨0, 0, 0, 2000, false, 0⟩], 1, 0⟩],
   [], 0, [], [⟨0, 0, 0, 2000⟩]⟩

/-- The slice of the same infeasible input as huawei.py builds it. -/
def c1Slice : Slice := ⟨0, 1, 1000, [⟨0, 0, 0, 2000, false, 0⟩], 0, 0⟩

lemma c1_step_init : carece.loopBody c1Init = some (.cont (c1Loop 1)) := by
  norm_num [carece.loopBody, carece.phaseAB, carece.scanAll, carece.scanSliceAux,
    carece.rescan, carece.can_schedule_packet, carece.calculate_packet_priority,
    carece.calculate_earliest_start_time, calculate_transmission_time, pyTrunc,
    carece.commitOn, carece.idleAdvance, carece.updAt, popMin, minEntry, entryLE,
    bstep, carece.initState, carece.mkSlices, carece.mkPackets, c1Init, c1Loop,
    Slice.has_more_packets, Slice.peek_next_packet]

set_option maxRecDepth 4000 in
lemma c1_step_loop (k : ℤ) : carece.loopBody (c1Loop k) = some (.cont (c1Loop (k + 1))) := by
  norm_num [carece.loopBody, carece.phaseAB, carece.scanAll, carece.scanSliceAux,
    carece.rescan, carece.can_schedule_packet, carece.calculate_packet_priority,
    carece.calculate_earliest_start_time, calculate_transmission_time, pyTrunc,
    carece.commitOn, carece.idleAdvance, carece.updAt, popMin, minEntry, entryLE,
    bstep, c1Loop, Slice.has_more_packets, Slice.peek_next_packet]

lemma c1_run_loop : ∀ (n : ℕ) (k : ℤ), carece.run n (c1Loop k) = .fuelOut (c1Loop (k + n)) := by
  intro n
  induction n with
  | zero => intro k; simp [carece.run]
  | succ n ih =>
    intro k
    rw [carece.run_cont_step n _ _ (c1_step_loop k), ih (k + 1)]
    have he : k + 1 + (n : ℤ) = k + ((n : ℕ) + 1 : ℕ) := by push_cast; ring
    rw [he]

/-- The priority huawei.py computes for the infeasible packet at clock 0:
`0.4*(1/1000) + 0.3*(2000/2000) + 0.3*(1-0)`. -/
def c1Prio : ℚ := 1501 / 2500

lemma c1_hw_step (n : ℕ) (ign : List (ℚ × Packet)) :
    huawei.hwScanAux 1000000000 0 [] (n + 1) c1Slice [] ign =
      huawei.hwScanAux 1000000000 0 [] n c1Slice []
        (ign ++ [(c1Prio, ⟨0, 0, 0, 2000, false, 0⟩)]) := by
  norm_num [huawei.hwScanAux, huawei.calculate_packet_priority,
    huawei.calculate_slice_bandwidth_usage, huawei.usageFold,
    calculate_transmission_time, pyTrunc, c1Slice, c1Prio]

/-- C1: the claim fails on the code — on the infeasible input the
scheduling loop never completes.  (a) huaweicarece.py: from `c1Init` every
iteration merely advances the clock by 1 with the infeasible packet stuck
in `delayed_packets`, so for every fuel bound the run is still unfinished
(and never crashes either — it spins).  (b) huawei.py: the inner admission
`while` loop never advances the slice cursor for the infeasible packet and
re-appends it to `ignored_packets` forever, so it exhausts any fuel. -/
theorem C1_infeasible_packet_diverges :
    (∀ n : ℕ, (carece.run n c1Init).isFuelOut = true) ∧
    (∀ (n : ℕ) (ign : List (ℚ × Packet)),
      huawei.hwScanAux 1000000000 0 [] n c1Slice [] ign = .fuel) := by
  constructor
  · intro n
    match n with
    | 0 => rfl
    | n + 1 =>
      rw [carece.run_cont_step n _ _ c1_step_init, c1_run_loop n 1]
      rfl
  · intro n
    induction n with
    | zero => intro ign; rfl
    | succ n ih =>
      intro ign
      rw [c1_hw_step]
      exact ih _

/-! ## C4 (counterexample) -/

/-- The `packetId`s of one slice's entries in the schedule log, in commit
order. -/
def pidsOfSlice (log : List Trip) (sid : ℕ) : List ℕ :=
  log.filterMap (fun t => if t.2.1 = sid then some t.2.2 else none)

/-- The final state of the inversion run: port 2 Gbps, one slice (1 Gbps,
10 ns bound) with packets of 2 and 3 bits arriving together at 0.  Packet 1
has the better efficiency score and is committed first. -/
def c4Final : carece.SState :=
  ⟨2000000000, 2, [⟨0, 1, 10, [⟨0, 0, 0, 2, true, 2⟩, ⟨0, 1, 0, 3, true, 1⟩], 2, 2⟩],
   [(1, 0, 1), (2, 0, 0)], 2, [], []⟩

/-- C4 counterexample: a completed run whose schedule log lists packet 1 of
slice 0 before packet 0 — the committed `packetId` sequence `[1, 0]` is not
strictly increasing. -/
theorem C4_counterexample :
    carece.run 10 (carece.initState 2 [⟨1, 10, [(0, 2), (0, 3)]⟩]) = .finished c4Final ∧
    pidsOfSlice c4Final.scheduled_packets 0 = [1, 0] ∧
    ¬ List.Chain' (fun a b : ℕ => a < b) (pidsOfSlice c4Final.scheduled_packets 0) := by
  refine ⟨?_, by decide, by simp [pidsOfSlice, c4Final, List.chain'_cons]⟩
  norm_num [carece.run, carece.loopBody, carece.phaseAB, carece.scanAll,
    carece.scanSliceAux, carece.rescan, carece.can_schedule_packet,
    carece.calculate_packet_priority, carece.calculate_earliest_start_time,
    calculate_transmission_time, pyTrunc, carece.commitOn, carece.idleAdvance,
    carece.updAt, popMin, minEntry, entryLE, bstep, carece.initState,
    carece.mkSlices, carece.mkPackets, c4Final, Slice.has_more_packets,
    Slice.peek_next_packet]

/-- The final state of the one-packet reference run (port 1 Gbps, one slice
with a single 10-bit packet arriving at 0): the packet transmits during
`[0, 10)`. -/
def wFinal : carece.SState :=
  ⟨1000000000, 10, [⟨0, 1, 10, [⟨0, 0, 0, 10, true, 10⟩], 1, 10⟩],
   [(10, 0, 0)], 10, [], []⟩

/-- Witness for C9: the determinism part applied to the reference run, and
the tie-break part applied to a two-entry heap with equal priorities where
the earlier arrival is popped. -/
theorem C9_determinism_and_tiebreak_witness :
    wFinal.scheduled_packets = wFinal.scheduled_packets ∧
    ((⟨1, 3, 1, 0, 4⟩ : Entry) ∈ [(⟨1, 5, 0, 0, 4⟩ : Entry), ⟨1, 3, 1, 0, 4⟩] ∧
      [(⟨1, 5, 0, 0, 4⟩ : Entry)] =
        [(⟨1, 5, 0, 0, 4⟩ : Entry), ⟨1, 3, 1, 0, 4⟩].erase ⟨1, 3, 1, 0, 4⟩ ∧
      ∀ f ∈ [(⟨1, 5, 0, 0, 4⟩ : Entry), ⟨1, 3, 1, 0, 4⟩],
        entryLE ⟨1, 3, 1, 0, 4⟩ f = true) := by
  constructor
  · exact C9_determinism_and_tiebreak.1 1 [⟨1, 10, [(0, 10)]⟩] 5 wFinal wFinal
      (by norm_num [carece.run, carece.loopBody, carece.phaseAB, carece.scanAll,
        carece.scanSliceAux, carece.rescan, carece.can_schedule_packet,
        carece.calculate_packet_priority, carece.calculate_earliest_start_time,
        calculate_transmission_time, pyTrunc, carece.commitOn, carece.idleAdvance,
        carece.updAt, popMin, minEntry, entryLE, bstep, carece.initState,
        carece.mkSlices, carece.mkPackets, Slice.has_more_packets,
        Slice.peek_next_packet, wFinal])
      (by norm_num [carece.run, carece.loopBody, carece.phaseAB, carece.scanAll,
        carece.scanSliceAux, carece.rescan, carece.can_schedule_packet,
        carece.calculate_packet_priority, carece.calculate_earliest_start_time,
        calculate_transmission_time, pyTrunc, carece.commitOn, carece.idleAdvance,
        carece.updAt, popMin, minEntry, entryLE, bstep, carece.initState,
        carece.mkSlices, carece.mkPackets, Slice.has_more_packets,
        Slice.peek_next_packet, wFinal])
  · exact C9_determinism_and_tiebreak.2 [⟨1, 5, 0, 0, 4⟩, ⟨1, 3, 1, 0, 4⟩]
      ⟨1, 3, 1, 0, 4⟩ [⟨1, 5, 0, 0, 4⟩]
      (by norm_num [popMin, minEntry, entryLE, bstep, List.erase_cons,
        Entry.mk.injEq])


/-! ## C6 -/

namespace huawei

lemma pktDelayFold_nil (sid : ℕ) (p : Packet) (acc : ℤ) :
    pktDelayFold sid p [] acc = acc := rfl

lemma pktDelayFold_cons (sid : ℕ) (p : Packet) (t : Trip) (rest : List Trip) (acc : ℤ) :
    pktDelayFold sid p (t :: rest) acc =
      pktDelayFold sid p rest
        (if t.2.1 == sid && t.2.2 == p.packet_id
         then max acc (t.1 - p.arrival_time) else acc) := rfl

lemma pktDelayFold_ge (sid : ℕ) (p : Packet) :
    ∀ (sched : List Trip) (acc : ℤ), acc ≤ pktDelayFold sid p sched acc := by
  intro sched
  induction sched with
  | nil => intro acc; rw [pktDelayFold_nil]
  | cons t rest ih =>
    intro acc
    rw [pktDelayFold_cons]
    refine le_trans ?_ (ih _)
    split
    · exact le_max_left _ _
    · exact le_refl _

lemma pktDelayFold_part (sid : ℕ) (p : Packet) :
    ∀ (sched : List Trip) (acc : ℤ) (t : Trip), t ∈ sched →
      (t.2.1 == sid && t.2.2 == p.packet_id) = true →
      t.1 - p.arrival_time ≤ pktDelayFold sid p sched acc := by
  intro sched
  induction sched with
  | nil => intro acc t ht; exact absurd ht (List.not_mem_nil t)
  | cons u rest ih =>
    intro acc t ht hc
    rcases List.mem_cons.mp ht with rfl | ht
    · rw [pktDelayFold_cons, if_pos hc]
      exact le_trans (le_max_right _ _) (pktDelayFold_ge sid p rest _)
    · rw [pktDelayFold_cons]
      exact ih _ t ht hc

lemma pktDelayFold_att (sid : ℕ) (p : Packet) :
    ∀ (sched : List Trip) (acc : ℤ),
      pktDelayFold sid p sched acc = acc ∨
      ∃ t ∈ sched, (t.2.1 == sid && t.2.2 == p.packet_id) = true ∧
        pktDelayFold sid p sched acc = t.1 - p.arrival_time := by
  intro sched
  induction sched with
  | nil => intro acc; exact Or.inl rfl
  | cons u rest ih =>
    intro acc
    rw [pktDelayFold_cons]
    by_cases hc : (u.2.1 == sid && u.2.2 == p.packet_id) = true
    · rw [if_pos hc]
      rcases ih (max acc (u.1 - p.arrival_time)) with h | ⟨t, ht, htc, htv⟩
      · rcases max_choice acc (u.1 - p.arrival_time) with hm | hm
        · exact Or.inl (by rw [h, hm])
        · exact Or.inr ⟨u, List.mem_cons_self u rest, hc, by rw [h, hm]⟩
      · exact Or.inr ⟨t, List.mem_cons_of_mem u ht, htc, htv⟩
    · rw [if_neg hc]
      rcases ih acc with h | ⟨t, ht, htc, htv⟩
      · exact Or.inl h
      · exact Or.inr ⟨t, List.mem_cons_of_mem u ht, htc, htv⟩

lemma packetsDelayFold_nil (sid : ℕ) (sched : List Trip) (acc : ℤ) :
    packetsDelayFold sid sched [] acc = acc := rfl

lemma packetsDelayFold_cons (sid : ℕ) (sched : List Trip) (p : Packet)
    (rest : List Packet) (acc : ℤ) :
    packetsDelayFold sid sched (p :: rest) acc =
      packetsDelayFold sid sched rest (pktDelayFold sid p sched acc) := rfl

lemma packetsDelayFold_ge (sid : ℕ) (sched : List Trip) :
    ∀ (ps : List Packet) (acc : ℤ), acc ≤ packetsDelayFold sid sched ps acc := by
  intro ps
  induction ps with
  | nil => intro acc; rw [packetsDelayFold_nil]
  | cons p rest ih =>
    intro acc
    rw [packetsDelayFold_cons]
    exact le_trans (pktDelayFold_ge sid p sched acc) (ih _)

lemma packetsDelayFold_part (sid : ℕ) (sched : List Trip) :
    ∀ (ps : List Packet) (acc : ℤ) (p : Packet) (t : Trip), p ∈ ps → t ∈ sched →
      (t.2.1 == sid && t.2.2 == p.packet_id) = true →
      t.1 - p.arrival_time ≤ packetsDelayFold sid sched ps acc := by
  intro ps
  induction ps with
  | nil => intro acc p t hp; exact absurd hp (List.not_mem_nil p)
  | cons q rest ih =>
    intro acc p t hp ht hc
    rcases List.mem_cons.mp hp with rfl | hp
    · rw [packetsDelayFold_cons]
      exact le_trans (pktDelayFold_part sid p sched acc t ht hc)
        (packetsDelayFold_ge sid sched rest _)
    · rw [packetsDelayFold_cons]
      exact ih _ p t hp ht hc

lemma packetsDelayFold_att (sid : ℕ) (sched : List Trip) :
    ∀ (ps : List Packet) (acc : ℤ),
      packetsDelayFold sid sched ps acc = acc ∨
      ∃ p ∈ ps, ∃ t ∈ sched, (t.2.1 == sid && t.2.2 == p.packet_id) = true ∧
        packetsDelayFold sid sched ps acc = t.1 - p.arrival_time := by
  intro ps
  induction ps with
  | nil => intro acc; exact Or.inl rfl
  | cons q rest ih =>
    intro acc
    rw [packetsDelayFold_cons]
    rcases ih (pktDelayFold sid q sched acc) with h | ⟨p, hp, t, ht, htc, htv⟩
    · rcases pktDelayFold_att sid q sched acc with h2 | ⟨t, ht, htc, htv⟩
      · exact Or.inl (by rw [h, h2])
      · exact Or.inr ⟨q, List.mem_cons_self q rest, t, ht, htc, by rw [h, htv]⟩
    · exact Or.inr ⟨p, List.mem_cons_of_mem q hp, t, ht, htc, htv⟩

lemma slicesDelayFold_nil (sched : List Trip) (acc : ℤ) :
    slicesDelayFold sched [] acc = acc := rfl

lemma slicesDelayFold_cons (sched : List Trip) (sl : Slice) (rest : List Slice) (acc : ℤ) :
    slicesDelayFold sched (sl :: rest) acc =
      slicesDelayFold sched rest (packetsDelayFold sl.slice_id sched sl.packets acc) := rfl

lemma slicesDelayFold_ge (sched : List Trip) :
    ∀ (slices : List Slice) (acc : ℤ), acc ≤ slicesDelayFold sched slices acc := by
  intro slices
  induction slices with
  | nil => intro acc; rw [slicesDelayFold_nil]
  | cons sl rest ih =>
    intro acc
    rw [slicesDelayFold_cons]
    exact le_trans (packetsDelayFold_ge sl.slice_id sched sl.packets acc) (ih _)

lemma slicesDelayFold_part (sched : List Trip) :
    ∀ (slices : List Slice) (acc : ℤ) (sl : Slice) (p : Packet) (t : Trip),
      sl ∈ slices → p ∈ sl.packets → t ∈ sched →
      (t.2.1 == sl.slice_id && t.2.2 == p.packet_id) = true →
      t.1 - p.arrival_time ≤ slicesDelayFold sched slices acc := by
  intro slices
  induction slices with
  | nil => intro acc sl p t hsl; exact absurd hsl (List.not_mem_nil sl)
  | cons u rest ih =>
    intro acc sl p t hsl hp ht hc
    rcases List.mem_cons.mp hsl with rfl | hsl
    · rw [slicesDelayFold_cons]
      exact le_trans (packetsDelayFold_part sl.slice_id sched sl.packets acc p t hp ht hc)
        (slicesDelayFold_ge sched rest _)
    · rw [slicesDelayFold_cons]
      exact ih _ sl p t hsl hp ht hc

lemma slicesDelayFold_att (sched : List Trip) :
    ∀ (slices : List Slice) (acc : ℤ),
      slicesDelayFold sched slices acc = acc ∨
      ∃ sl ∈ slices, ∃ p ∈ sl.packets, ∃ t ∈ sched,
        (t.2.1 == sl.slice_id && t.2.2 == p.packet_id) = true ∧
        slicesDelayFold sched slices acc = t.1 - p.arrival_time := by
  intro slices
  induction slices with
  | nil => intro acc; exact Or.inl rfl
  | cons u rest ih =>
    intro acc
    rw [slicesDelayFold_cons]
    rcases ih (packetsDelayFold u.slice_id sched u.packets acc) with h | hex
    · rcases packetsDelayFold_att u.slice_id sched u.packets acc with h2 | ⟨p, hp, t, ht, htc, htv⟩
      · exact Or.inl (by rw [h, h2])
      · exact Or.inr ⟨u, List.mem_cons_self u rest, p, hp, t, ht, htc, by rw [h, htv]⟩
    · obtain ⟨sl, hsl, rest'⟩ := hex
      exact Or.inr ⟨sl, List.mem_cons_of_mem u hsl, rest'⟩

lemma get_max_delay_eq (slices : List Slice) (sched : List Trip) :
    get_max_delay slices sched = slicesDelayFold sched slices 0 := rfl

lemma slice_max_delay_eq (sl : Slice) (sched : List Trip) :
    slice_max_delay sl sched = packetsDelayFold sl.slice_id sched sl.packets 0 := rfl

end huawei

namespace huawei

lemma ptLookup_eq_none_of_not_mem (sched : List Trip) (s j : ℕ)
    (h : (s, j) ∉ sched.map tripPair) : ptLookup sched s j = none := by
  unfold ptLookup
  have hf : sched.filter (fun t => t.2.1 == s && t.2.2 == j) = [] := by
    rw [List.filter_eq_nil]
    intro t ht hc
    apply h
    simp only [Bool.and_eq_true, beq_iff_eq] at hc
    exact List.mem_map.mpr ⟨t, ht, by simp [tripPair, hc.1, hc.2]⟩
  rw [hf]
  rfl

lemma ptLookup_of_nodup :
    ∀ (sched : List Trip), (sched.map tripPair).Nodup →
      ∀ t ∈ sched, ptLookup sched t.2.1 t.2.2 = some t.1 := by
  intro sched
  induction sched with
  | nil => intro _ t ht; exact absurd ht (List.not_mem_nil t)
  | cons u rest ih =>
    intro hnd t ht
    have hnd' : (rest.map tripPair).Nodup := (List.nodup_cons.mp hnd).2
    have hu : tripPair u ∉ rest.map tripPair := (List.nodup_cons.mp hnd).1
    rcases List.mem_cons.mp ht with rfl | ht
    · unfold ptLookup
      rw [List.filter_cons, if_pos (by simp)]
      have hf : rest.filter (fun t2 => t2.2.1 == t.2.1 && t2.2.2 == t.2.2) = [] := by
        rw [List.filter_eq_nil]
        intro v hv hc
        simp only [Bool.and_eq_true, beq_iff_eq] at hc
        exact hu (List.mem_map.mpr ⟨v, hv, by simp [tripPair, hc.1, hc.2]⟩)
      rw [hf]
      rfl
    · have hne : (u.2.1 == t.2.1 && u.2.2 == t.2.2) = false := by
        by_contra hcon
        rw [Bool.not_eq_false, Bool.and_eq_true, beq_iff_eq, beq_iff_eq] at hcon
        exact hu (by
          rw [show tripPair u = tripPair t by simp [tripPair, hcon.1, hcon.2]]
          exact List.mem_map.mpr ⟨t, ht, rfl⟩)
      unfold ptLookup
      rw [List.filter_cons, if_neg (by simp [hne])]
      exact ih hnd' t ht

lemma orderingOkAux_true_facts (sid : ℕ) (sched : List Trip) :
    ∀ (ps : List Packet) (i : ℕ) (acc : ℤ),
      orderingOkAux sid sched ps i acc = true →
      ∀ (j : ℕ) (h : j < ps.length),
        ∃ e, ptLookup sched sid (i + j) = some e ∧ (ps.get ⟨j, h⟩).arrival_time ≤ e := by
  intro ps
  induction ps with
  | nil => intro i acc _ j h; exact absurd h (by simp)
  | cons p rest ih =>
    intro i acc hok j h
    unfold orderingOkAux at hok
    cases he : ptLookup sched sid i with
    | none =>
      rw [he] at hok
      exact absurd hok (by simp)
    | some e =>
      rw [he] at hok
      rw [Bool.and_eq_true, Bool.and_eq_true] at hok
      obtain ⟨⟨h1, _⟩, hrec⟩ := hok
      rw [Bool.not_eq_true', decide_eq_false_iff_not, not_lt] at h1
      match j with
      | 0 => exact ⟨e, by simpa using he, by simpa using h1⟩
      | j + 1 =>
        obtain ⟨e2, he2, ha2⟩ := ih (i + 1) e hrec j (by simpa using h)
        refine ⟨e2, ?_, by simpa using ha2⟩
        rw [show i + (j + 1) = i + 1 + j by omega]
        exact he2

lemma orderingOkAux_false_of_missing (sid : ℕ) (sched : List Trip) :
    ∀ (ps : List Packet) (i : ℕ) (acc : ℤ) (j : ℕ), j < ps.length →
      ptLookup sched sid (i + j) = none →
      orderingOkAux sid sched ps i acc = false := by
  intro ps
  induction ps with
  | nil => intro i acc j h; exact absurd h (by simp)
  | cons p rest ih =>
    intro i acc j hj hmiss
    unfold orderingOkAux
    match j with
    | 0 =>
      rw [show i + 0 = i from rfl] at hmiss
      rw [hmiss]
    | j + 1 =>
      cases he : ptLookup sched sid i with
      | none => rfl
      | some e =>
        have hr : orderingOkAux sid sched rest (i + 1) e = false := by
          refine ih (i + 1) e j (by simpa using hj) ?_
          rw [show i + 1 + j = i + (j + 1) by omega]
          exact hmiss
        simp only [hr, Bool.and_false]

lemma validPairs_length : ∀ (slices : List Slice),
    (validPairs slices).length = totalPackets slices := by
  intro slices
  induction slices with
  | nil => rfl
  | cons sl rest ih =>
    rw [validPairs, List.length_append, List.length_map, List.length_range, ih]
    simp [totalPackets]

lemma validPairs_mem : ∀ (slices : List Slice) (s j : ℕ),
    (s, j) ∈ validPairs slices ↔ ∃ sl ∈ slices, sl.slice_id = s ∧ j < sl.packets.length := by
  intro slices s j
  induction slices with
  | nil => simp [validPairs]
  | cons sl rest ih =>
    simp only [validPairs, List.mem_append, List.mem_map, List.mem_range, ih]
    constructor
    · rintro (⟨a, ha, hap⟩ | ⟨u, hu, hus, huj⟩)
      · obtain ⟨h1, h2⟩ := Prod.mk.injEq _ _ _ _ ▸ hap
        exact ⟨sl, List.mem_cons_self sl rest, h1, h2 ▸ ha⟩
      · exact ⟨u, List.mem_cons_of_mem sl hu, hus, huj⟩
    · rintro ⟨u, hu, hus, huj⟩
      rcases List.mem_cons.mp hu with rfl | hu
      · exact Or.inl ⟨j, huj, by rw [hus]⟩
      · exact Or.inr ⟨u, hu, hus, huj⟩

lemma validPairs_nodup : ∀ (slices : List Slice),
    (slices.map Slice.slice_id).Nodup → (validPairs slices).Nodup := by
  intro slices
  induction slices with
  | nil => intro _; simp [validPairs]
  | cons sl rest ih =>
    intro hnd
    rw [List.map_cons, List.nodup_cons] at hnd
    rw [validPairs, List.nodup_append]
    refine ⟨?_, ih hnd.2, ?_⟩
    · refine List.Nodup.map ?_ (List.nodup_range _)
      intro a b hab
      simpa using congrArg Prod.snd hab
    · intro pr hpr hpr2
      obtain ⟨a, _, hap⟩ := List.mem_map.mp hpr
      have hfst : pr.1 = sl.slice_id := by rw [← hap]
      obtain ⟨u, hu, hus, _⟩ := (validPairs_mem rest pr.1 pr.2).mp (by
        rcases pr with ⟨x, y⟩
        exact hpr2)
      exact hnd.1 (List.mem_map.mpr ⟨u, hu, by rw [hus, hfst]⟩)

lemma exists_missing_pair (slices : List Slice) (sched : List Trip)
    (hsid : (slices.map Slice.slice_id).Nodup)
    (hlt : sched.length < totalPackets slices) :
    ∃ sl ∈ slices, ∃ j, j < sl.packets.length ∧
      (sl.slice_id, j) ∉ sched.map tripPair := by
  by_contra hcon
  push_neg at hcon
  have hsub : validPairs slices ⊆ sched.map tripPair := by
    intro pr hpr
    rcases pr with ⟨s, j⟩
    obtain ⟨sl, hsl, hss, hj⟩ := (validPairs_mem slices s j).mp hpr
    have := hcon sl hsl j hj
    rw [hss] at this
    exact this
  have hle := ((validPairs_nodup slices hsid).subperm hsub).length_le
  rw [validPairs_length, List.length_map] at hle
  omega

end huawei

namespace huawei

lemma sliceWithin_iff (sched : List Trip) (sl : Slice) (hb : 0 ≤ sl.max_delay) :
    (slice_max_delay sl sched ≤ sl.max_delay) ↔ specWithin sl sched := by
  constructor
  · intro hle t ht hts p hp hpid
    refine le_trans ?_ hle
    rw [slice_max_delay_eq]
    exact packetsDelayFold_part sl.slice_id sched sl.packets 0 p t hp ht
      (by simp [hts, hpid])
  · intro hspec
    rw [slice_max_delay_eq]
    rcases packetsDelayFold_att sl.slice_id sched sl.packets 0 with h0 | ⟨p, hp, t, ht, htc, htv⟩
    · rw [h0]
      exact hb
    · rw [htv]
      simp only [Bool.and_eq_true, beq_iff_eq] at htc
      exact hspec t ht htc.1 p hp htc.2.symm

lemma satisfied_eq (slices : List Slice) (sched : List Trip)
    (hb : ∀ sl ∈ slices, 0 ≤ sl.max_delay) :
    slices.countP (fun sl => decide (slice_max_delay sl sched ≤ sl.max_delay)) =
      slices.countP (fun sl => decide (specWithin sl sched)) := by
  apply List.countP_congr
  intro sl hsl
  simp only [decide_eq_true_eq]
  exact sliceWithin_iff sched sl (hb sl hsl)

end huawei

/-- C6: the score of huawei.py is exactly as claimed.  It is 0 when the
Verifier fails, when the maximum committed delay is 0, and — via the
Verifier's completeness check — when fewer packets are committed than were
submitted; otherwise it equals (slices whose every committed packet meets
their own `max_delay`) / (total slices) + 10000 / (maximum committed
delay), where `get_max_delay` is indeed the maximum (bounded above by it,
attained, nonnegative). -/
theorem C6_score_characterization (slices : List Slice) (sched : List Trip)
    (hsid : (slices.map Slice.slice_id).Nodup)
    (hmd0 : ∀ sl ∈ slices, 0 ≤ sl.max_delay) :
    (huawei.verify_constraints slices sched = false → huawei.get_score slices sched = 0) ∧
    (huawei.get_max_delay slices sched = 0 → huawei.get_score slices sched = 0) ∧
    (sched.length < totalPackets slices → huawei.get_score slices sched = 0) ∧
    (huawei.verify_constraints slices sched = true →
      huawei.get_max_delay slices sched ≠ 0 →
      huawei.get_score slices sched =
        (slices.countP (fun sl => decide (specWithin sl sched)) : ℚ) / (slices.length : ℚ)
          + 10000 / ((huawei.get_max_delay slices sched : ℤ) : ℚ) ∧
      0 ≤ huawei.get_max_delay slices sched ∧
      (∀ t ∈ sched, ∀ sl ∈ slices, sl.slice_id = t.2.1 →
        ∀ p ∈ sl.packets, p.packet_id = t.2.2 →
          t.1 - p.arrival_time ≤ huawei.get_max_delay slices sched) ∧
      (∃ sl ∈ slices, ∃ p ∈ sl.packets, ∃ t ∈ sched,
        t.2.1 = sl.slice_id ∧ t.2.2 = p.packet_id ∧
        huawei.get_max_delay slices sched = t.1 - p.arrival_time)) := by
  have score_zero_of_not_verify :
      huawei.verify_constraints slices sched = false → huawei.get_score slices sched = 0 := by
    intro hv
    simp [huawei.get_score, hv]
  refine ⟨score_zero_of_not_verify, ?_, ?_, ?_⟩
  · intro hmd
    by_cases hv : huawei.verify_constraints slices sched = true
    · simp [huawei.get_score, hv, hmd]
    · exact score_zero_of_not_verify (Bool.not_eq_true _ ▸ Bool.of_not_eq_true hv)
  · intro hlt
    obtain ⟨sl, hsl, j, hj, hmiss⟩ := huawei.exists_missing_pair slices sched hsid hlt
    have hord : huawei.orderingOk sl sched = false := by
      unfold huawei.orderingOk
      refine huawei.orderingOkAux_false_of_missing sl.slice_id sched sl.packets 0 0 j hj ?_
      rw [Nat.zero_add]
      exact huawei.ptLookup_eq_none_of_not_mem sched sl.slice_id j hmiss
    apply score_zero_of_not_verify
    unfold huawei.verify_constraints
    have hall : (slices.all fun sl2 => huawei.orderingOk sl2 sched) = false := by
      by_contra hcon
      rw [Bool.not_eq_false, List.all_eq_true] at hcon
      rw [hcon sl hsl] at hord
      exact absurd hord (by simp)
    rw [hall, Bool.false_and]
  · intro hv hmd
    refine ⟨?_, ?_, ?_, ?_⟩
    · simp only [huawei.get_score, hv, Bool.not_true, Bool.false_eq_true, if_false,
        if_neg hmd]
      rw [huawei.satisfied_eq slices sched hmd0]
    · rw [huawei.get_max_delay_eq]
      exact huawei.slicesDelayFold_ge sched slices 0
    · intro t ht sl hsl hts p hp hpid
      rw [huawei.get_max_delay_eq]
      exact huawei.slicesDelayFold_part sched slices 0 sl p t hsl hp ht
        (by simp [hts.symm, hpid])
    · rcases huawei.slicesDelayFold_att sched slices 0 with h0 | ⟨sl, hsl, p, hp, t, ht, htc, htv⟩
      · exact absurd (huawei.get_max_delay_eq slices sched ▸ h0) hmd
      · simp only [Bool.and_eq_true, beq_iff_eq] at htc
        exact ⟨sl, hsl, p, hp, t, ht, htc.1, htc.2,
          huawei.get_max_delay_eq slices sched ▸ htv⟩

/-- C6 counterexample (for the huaweicarece.py variant): on a run with one
slice and no packets the maximum delay is 0 and the claim demands score 0,
but huaweicarece.py's `get_score` — which has no Verifier — divides by zero
(raises) instead of returning 0. -/
theorem C6_counterexample :
    carece.get_score [⟨0, 1, 10, [], 0, 0⟩] [] 0 = none ∧
    (none : Option ℚ) ≠ some 0 := by
  constructor
  · rfl
  · simp

/-- The slices / schedule of the completed reference run, used to witness
C6. -/
def c6Slices : List Slice := [⟨0, 1, 10, [⟨0, 0, 0, 10, true, 10⟩], 1, 10⟩]

def c6Sched : List Trip := [(10, 0, 0)]

/-- Witness for C6: the characterization applied to the reference run. -/
theorem C6_score_characterization_witness :
    (huawei.verify_constraints c6Slices c6Sched = false →
      huawei.get_score c6Slices c6Sched = 0) ∧
    (huawei.get_max_delay c6Slices c6Sched = 0 →
      huawei.get_score c6Slices c6Sched = 0) ∧
    (c6Sched.length < totalPackets c6Slices → huawei.get_score c6Slices c6Sched = 0) ∧
    (huawei.verify_constraints c6Slices c6Sched = true →
      huawei.get_max_delay c6Slices c6Sched ≠ 0 →
      huawei.get_score c6Slices c6Sched =
        (c6Slices.countP (fun sl => decide (specWithin sl c6Sched)) : ℚ)
            / (c6Slices.length : ℚ)
          + 10000 / ((huawei.get_max_delay c6Slices c6Sched : ℤ) : ℚ) ∧
      0 ≤ huawei.get_max_delay c6Slices c6Sched ∧
      (∀ t ∈ c6Sched, ∀ sl ∈ c6Slices, sl.slice_id = t.2.1 →
        ∀ p ∈ sl.packets, p.packet_id = t.2.2 →
          t.1 - p.arrival_time ≤ huawei.get_max_delay c6Slices c6Sched) ∧
      (∃ sl ∈ c6Slices, ∃ p ∈ sl.packets, ∃ t ∈ c6Sched,
        t.2.1 = sl.slice_id ∧ t.2.2 = p.packet_id ∧
        huawei.get_max_delay c6Slices c6Sched = t.1 - p.arrival_time)) :=
  C6_score_characterization c6Slices c6Sched (by decide) (by decide)

/-! ## Loop invariants (C3, C4, C5, C10) -/

namespace carece

lemma indicator_extend (sid cpi c2 : ℕ) (hc : cpi < c2) (pr : ℕ × ℕ) (n : ℕ)
    (hn : n = if pr.1 = sid ∧ cpi + 1 ≤ pr.2 ∧ pr.2 < c2 then 1 else 0) :
    (if ((sid, cpi) : ℕ × ℕ) = pr then 1 else 0) + n =
      if pr.1 = sid ∧ cpi ≤ pr.2 ∧ pr.2 < c2 then 1 else 0 := by
  subst hn
  by_cases hpe : ((sid, cpi) : ℕ × ℕ) = pr
  · subst hpe
    rw [if_pos rfl,
      if_neg (show ¬(sid = sid ∧ cpi + 1 ≤ cpi ∧ cpi < c2) by omega),
      if_pos (show sid = sid ∧ cpi ≤ cpi ∧ cpi < c2 from ⟨rfl, le_refl _, hc⟩)]
  · rw [if_neg hpe]
    simp only [zero_add]
    by_cases hx : pr.1 = sid ∧ cpi + 1 ≤ pr.2 ∧ pr.2 < c2
    · rw [if_pos hx, if_pos ⟨hx.1, by omega, hx.2.2⟩]
    · have hy2 : ¬(pr.1 = sid ∧ cpi ≤ pr.2 ∧ pr.2 < c2) := by
        intro hy
        apply hx
        refine ⟨hy.1, ?_, hy.2.2⟩
        rcases Nat.eq_or_lt_of_le hy.2.1 with he | hlt2
        · exact absurd (by rw [Prod.ext_iff]; exact ⟨hy.1.symm, he⟩) hpe
        · omega
      rw [if_neg hx, if_neg hy2]

lemma scanSliceAux_spec (B : ℚ) (ct gldt : ℤ) :
    ∀ (k : ℕ) (sl : Slice) (ready : List Entry) (delayed : List DEntry)
      (sl2 : Slice) (r2 : List Entry) (d2 : List DEntry),
      (∀ (j : ℕ) (h : j < sl.packets.length), (sl.packets.get ⟨j, h⟩).packet_id = j) →
      scanSliceAux B ct gldt k sl ready delayed = some (sl2, r2, d2) →
      sl2.slice_id = sl.slice_id ∧ sl2.packets = sl.packets ∧
      sl2.bandwidth = sl.bandwidth ∧ sl2.max_delay = sl.max_delay ∧
      sl2.last_departure_time = sl.last_departure_time ∧
      sl.current_packet_idx ≤ sl2.current_packet_idx ∧
      (sl.current_packet_idx ≤ sl.packets.length →
        sl2.current_packet_idx ≤ sl.packets.length) ∧
      (sl.packets.length - sl.current_packet_idx ≤ k →
        ∀ h : sl2.current_packet_idx < sl.packets.length,
          ct < (sl.packets.get ⟨sl2.current_packet_idx, h⟩).arrival_time) ∧
      ∃ (nr : List Entry) (nd : List DEntry),
        r2 = ready ++ nr ∧ d2 = delayed ++ nd ∧
        (∀ pr : ℕ × ℕ, (nr.map Entry.pair).count pr + (nd.map DEntry.pair).count pr =
          if pr.1 = sl.slice_id ∧ sl.current_packet_idx ≤ pr.2 ∧
              pr.2 < sl2.current_packet_idx then 1 else 0) ∧
        (∀ e ∈ nr, e.sid = sl.slice_id ∧ ∃ h : e.pid < sl.packets.length,
          (sl.packets.get ⟨e.pid, h⟩).arrival_time = e.arr ∧
          (sl.packets.get ⟨e.pid, h⟩).size = e.psize) ∧
        (∀ d ∈ nd, d.dsid = sl.slice_id ∧ ∃ h : d.dpid < sl.packets.length,
          (sl.packets.get ⟨d.dpid, h⟩).arrival_time = d.darr ∧
          (sl.packets.get ⟨d.dpid, h⟩).size = d.dsize) := by
  intro k
  induction k with
  | zero =>
    intro sl ready delayed sl2 r2 d2 _ hrun
    unfold scanSliceAux at hrun
    cases hrun
    refine ⟨rfl, rfl, rfl, rfl, rfl, le_refl _, fun h => h, fun hk h => absurd h (by omega),
      [], [], by simp, by simp, ?_, by simp, by simp⟩
    intro pr
    simp only [List.map_nil, List.count_nil]
    rw [if_neg (by omega)]
  | succ k ih =>
    intro sl ready delayed sl2 r2 d2 hpid hrun
    unfold scanSliceAux at hrun
    cases hget : sl.packets.get? sl.current_packet_idx with
    | none =>
      simp only [hget] at hrun
      cases hrun
      have hcpi : sl.packets.length ≤ sl.current_packet_idx := by
        by_contra hc
        rw [List.get?_eq_get (not_le.mp hc)] at hget
        exact absurd hget (by simp)
      refine ⟨rfl, rfl, rfl, rfl, rfl, le_refl _, fun h => h, fun hk h => absurd h (by omega),
        [], [], by simp, by simp, ?_, by simp, by simp⟩
      intro pr
      simp only [List.map_nil, List.count_nil]
      rw [if_neg (by omega)]
    | some p =>
      simp only [hget] at hrun
      obtain ⟨hlt, hp⟩ := List.get?_eq_some.mp hget
      by_cases harr : ct < p.arrival_time
      · rw [if_pos harr] at hrun
        cases hrun
        refine ⟨rfl, rfl, rfl, rfl, rfl, le_refl _, fun h => h, ?_,
          [], [], by simp, by simp, ?_, by simp, by simp⟩
        · intro _ h
          rw [show sl.packets.get ⟨sl.current_packet_idx, h⟩ = p from hp]
          exact harr
        · intro pr
          simp only [List.map_nil, List.count_nil]
          rw [if_neg (by omega)]
      · rw [if_neg harr] at hrun
        cases hcs : can_schedule_packet B sl p.arrival_time p.size
            (calculate_earliest_start_time gldt sl p.arrival_time) with
        | none =>
          simp only [hcs] at hrun
          exact absurd hrun (by simp)
        | some b =>
          simp only [hcs] at hrun
          have hpidc : p.packet_id = sl.current_packet_idx := by
            rw [← hp]
            exact hpid sl.current_packet_idx hlt
          have hget2 : sl.packets.get? p.packet_id = some p := by
            rw [hpidc]
            exact hget
          have hep2 : ∀ h : p.packet_id < sl.packets.length,
              sl.packets.get ⟨p.packet_id, h⟩ = p := by
            intro h
            exact Option.some.inj (by rw [← List.get?_eq_get h]; exact hget2)
          cases b with
          | true =>
            cases hprv : calculate_packet_priority B sl p.arrival_time p.size ct with
            | none =>
              simp only [hprv] at hrun
              exact absurd hrun (by simp)
            | some pv =>
              simp only [hprv] at hrun
              obtain ⟨f1, f2, f3, f4, f5, f6, f7, f8, nr2, nd2, ho1, ho2, hcount, hce, hcd⟩ :=
                ih { sl with current_packet_idx := sl.current_packet_idx + 1 }
                  (ready ++ [⟨-pv, p.arrival_time, sl.slice_id, p.packet_id, p.size⟩])
                  delayed sl2 r2 d2 (by exact hpid) hrun
              simp only at f1 f2 f3 f4 f5 f6 f7 f8 hcount hce hcd
              refine ⟨f1, f2, f3, f4, f5, by omega, ?_, ?_,
                ⟨-pv, p.arrival_time, sl.slice_id, p.packet_id, p.size⟩ :: nr2, nd2,
                by rw [ho1, List.append_assoc]; rfl, ho2, ?_, ?_, ?_⟩
              · intro hle
                exact f7 (by omega)
              · intro hk h
                exact f8 (by omega) h
              · intro pr
                have hIH := hcount pr
                rw [List.map_cons, List.count_cons]
                have hee : Entry.pair ⟨-pv, p.arrival_time, sl.slice_id, p.packet_id, p.size⟩ =
                    ((sl.slice_id, sl.current_packet_idx) : ℕ × ℕ) := by
                  simp [Entry.pair, hpidc]
                rw [hee]
                simp only [beq_iff_eq]
                have hext := indicator_extend sl.slice_id sl.current_packet_idx
                  sl2.current_packet_idx (by omega) pr _ hIH
                omega

              · intro e he
                rcases List.mem_cons.mp he with rfl | he
                · exact ⟨rfl, hpidc ▸ hlt, by rw [hep2], by rw [hep2]⟩
                · exact hce e he
              · intro d hd
                exact hcd d hd
          | false =>
            obtain ⟨f1, f2, f3, f4, f5, f6, f7, f8, nr2, nd2, ho1, ho2, hcount, hce, hcd⟩ :=
              ih { sl with current_packet_idx := sl.current_packet_idx + 1 }
                ready (delayed ++ [⟨sl.slice_id, p.packet_id, p.arrival_time, p.size⟩])
                sl2 r2 d2 (by exact hpid) hrun
            simp only at f1 f2 f3 f4 f5 f6 f7 f8 hcount hce hcd
            refine ⟨f1, f2, f3, f4, f5, by omega, ?_, ?_,
              nr2, ⟨sl.slice_id, p.packet_id, p.arrival_time, p.size⟩ :: nd2,
              ho1, by rw [ho2, List.append_assoc]; rfl, ?_, ?_, ?_⟩
            · intro hle
              exact f7 (by omega)
            · intro hk h
              exact f8 (by omega) h
            · intro pr
              have hIH := hcount pr
              rw [List.map_cons, List.count_cons]
              have hee : DEntry.pair ⟨sl.slice_id, p.packet_id, p.arrival_time, p.size⟩ =
                  ((sl.slice_id, sl.current_packet_idx) : ℕ × ℕ) := by
                simp [DEntry.pair, hpidc]
              rw [hee]
              simp only [beq_iff_eq]
              have hext := indicator_extend sl.slice_id sl.current_packet_idx
                sl2.current_packet_idx (by omega) pr _ hIH
              omega
            · intro e he
              exact hce e he
            · intro d hd
              rcases List.mem_cons.mp hd with rfl | hd
              · exact ⟨rfl, hpidc ▸ hlt, by rw [hep2], by rw [hep2]⟩
              · exact hcd d hd

lemma scanAll_spec (B : ℚ) (ct gldt : ℤ) :
    ∀ (ss : List Slice) (ready : List Entry) (delayed : List DEntry)
      (ss2 : List Slice) (r2 : List Entry) (d2 : List DEntry),
      (∀ sl ∈ ss, ∀ (j : ℕ) (h : j < sl.packets.length),
        (sl.packets.get ⟨j, h⟩).packet_id = j) →
      (ss.map Slice.slice_id).Nodup →
      scanAll B ct gldt ss ready delayed = some (ss2, r2, d2) →
      List.Forall₂ (SliceRel ct) ss ss2 ∧
      ∃ (nr : List Entry) (nd : List DEntry),
        r2 = ready ++ nr ∧ d2 = delayed ++ nd ∧
        (∀ pr : ℕ × ℕ, (nr.map Entry.pair).count pr + (nd.map DEntry.pair).count pr =
          if ∃ q ∈ ss.zip ss2, pr.1 = q.1.slice_id ∧ q.1.current_packet_idx ≤ pr.2 ∧
              pr.2 < q.2.current_packet_idx then 1 else 0) ∧
        (∀ e ∈ nr, ∃ sl ∈ ss, e.sid = sl.slice_id ∧ ∃ h : e.pid < sl.packets.length,
          (sl.packets.get ⟨e.pid, h⟩).arrival_time = e.arr ∧
          (sl.packets.get ⟨e.pid, h⟩).size = e.psize) ∧
        (∀ d ∈ nd, ∃ sl ∈ ss, d.dsid = sl.slice_id ∧ ∃ h : d.dpid < sl.packets.length,
          (sl.packets.get ⟨d.dpid, h⟩).arrival_time = d.darr ∧
          (sl.packets.get ⟨d.dpid, h⟩).size = d.dsize) := by
  intro ss
  induction ss with
  | nil =>
    intro ready delayed ss2 r2 d2 _ _ hrun
    unfold scanAll at hrun
    cases hrun
    refine ⟨List.Forall₂.nil, [], [], by simp, by simp, ?_, by simp, by simp⟩
    intro pr
    simp
  | cons sl rest ih =>
    intro ready delayed ss2 r2 d2 hpid hnd hrun
    unfold scanAll at hrun
    cases hsc : scanSliceAux B ct gldt (sl.packets.length - sl.current_packet_idx)
        sl ready delayed with
    | none =>
      simp only [hsc] at hrun
      exact absurd hrun (by simp)
    | some out1 =>
      obtain ⟨sl1, r1, d1⟩ := out1
      simp only [hsc] at hrun
      cases hsc2 : scanAll B ct gldt rest r1 d1 with
      | none =>
        simp only [hsc2] at hrun
        exact absurd hrun (by simp)
      | some out2 =>
        obtain ⟨rest2, rr, dd⟩ := out2
        simp only [hsc2] at hrun
        cases hrun
        obtain ⟨g1, g2, g3, g4, g5, g6, g7, g8, nr1, nd1, hr1, hd1, hcount1, hce1, hcd1⟩ :=
          scanSliceAux_spec B ct gldt (sl.packets.length - sl.current_packet_idx)
            sl ready delayed sl1 r1 d1 (hpid sl (List.mem_cons_self sl rest)) hsc
        obtain ⟨hf2, nr2, nd2, hr2, hd2, hcount2, hce2, hcd2⟩ :=
          ih r1 d1 rest2 r2 d2 (fun u hu => hpid u (List.mem_cons_of_mem sl hu))
            ((List.nodup_cons.mp (by simpa using hnd)).2) hsc2
        have hrel : SliceRel ct sl sl1 :=
          ⟨g1, g2, g3, g4, g5, g6, g7, g8 (le_refl _)⟩
        refine ⟨List.Forall₂.cons hrel hf2, nr1 ++ nr2, nd1 ++ nd2, ?_, ?_, ?_, ?_, ?_⟩
        · rw [hr2, hr1, List.append_assoc]
        · rw [hd2, hd1, List.append_assoc]
        · intro pr
          have h1 := hcount1 pr
          have h2 := hcount2 pr
          rw [List.map_append, List.map_append, List.count_append, List.count_append]
          rw [List.zip_cons_cons]
          by_cases hc1 : pr.1 = sl.slice_id ∧ sl.current_packet_idx ≤ pr.2 ∧
              pr.2 < sl1.current_packet_idx
          · rw [if_pos hc1] at h1
            have hc2 : ¬ ∃ q ∈ rest.zip rest2, pr.1 = q.1.slice_id ∧
                q.1.current_packet_idx ≤ pr.2 ∧ pr.2 < q.2.current_packet_idx := by
              rintro ⟨q, hq, hq1, _⟩
              have hmem : q.1 ∈ rest := (List.of_mem_zip hq).1
              have : sl.slice_id ∈ rest.map Slice.slice_id :=
                List.mem_map.mpr ⟨q.1, hmem, by rw [← hq1, hc1.1]⟩
              exact (List.nodup_cons.mp (by simpa using hnd)).1 this
            rw [if_neg hc2] at h2
            rw [if_pos ⟨(sl, sl1), List.mem_cons_self _ _, hc1⟩]
            omega
          · rw [if_neg hc1] at h1
            by_cases hc2 : ∃ q ∈ rest.zip rest2, pr.1 = q.1.slice_id ∧
                q.1.current_packet_idx ≤ pr.2 ∧ pr.2 < q.2.current_packet_idx
            · rw [if_pos hc2] at h2
              obtain ⟨q, hq, hqp⟩ := hc2
              rw [if_pos ⟨q, List.mem_cons_of_mem _ hq, hqp⟩]
              omega
            · rw [if_neg hc2] at h2
              rw [if_neg ?_]
              · omega
              · rintro ⟨q, hq, hqp⟩
                rcases List.mem_cons.mp hq with rfl | hq
                · exact hc1 hqp
                · exact hc2 ⟨q, hq, hqp⟩
        · intro e he
          rcases List.mem_append.mp he with he | he
          · obtain ⟨e1, e2⟩ := hce1 e he
            exact ⟨sl, List.mem_cons_self _ _, e1, e2⟩
          · obtain ⟨u, hu, rest'⟩ := hce2 e he
            exact ⟨u, List.mem_cons_of_mem _ hu, rest'⟩
        · intro d hd
          rcases List.mem_append.mp hd with hd | hd
          · obtain ⟨e1, e2⟩ := hcd1 d hd
            exact ⟨sl, List.mem_cons_self _ _, e1, e2⟩
          · obtain ⟨u, hu, rest'⟩ := hcd2 d hd
            exact ⟨u, List.mem_cons_of_mem _ hu, rest'⟩

lemma rescan_spec (B : ℚ) (ct gldt : ℤ) (slices : List Slice)
    (hids : ∀ (i : ℕ) (h : i < slices.length), (slices.get ⟨i, h⟩).slice_id = i) :
    ∀ (dl : List DEntry) (ready : List Entry) (kept : List DEntry)
      (r2 : List Entry) (d2 : List DEntry),
      rescan B ct gldt slices dl ready kept = some (r2, d2) →
      ∃ (nr : List Entry) (nd : List DEntry),
        r2 = ready ++ nr ∧ d2 = kept ++ nd ∧
        (∀ pr : ℕ × ℕ, (nr.map Entry.pair).count pr + (nd.map DEntry.pair).count pr =
          (dl.map DEntry.pair).count pr) ∧
        (∀ e ∈ nr, ∃ d ∈ dl, e.sid = d.dsid ∧ e.pid = d.dpid ∧
          e.arr = d.darr ∧ e.psize = d.dsize) ∧
        (∀ d ∈ nd, d ∈ dl) := by
  intro dl
  induction dl with
  | nil =>
    intro ready kept r2 d2 hrun
    unfold rescan at hrun
    cases hrun
    exact ⟨[], [], by simp, by simp, by simp, by simp, by simp⟩
  | cons d rest ih =>
    intro ready kept r2 d2 hrun
    unfold rescan at hrun
    cases hget : slices.get? d.dsid with
    | none =>
      simp only [hget] at hrun
      exact absurd hrun (by simp)
    | some sl =>
      simp only [hget] at hrun
      have hsid : sl.slice_id = d.dsid := by
        obtain ⟨h, hg⟩ := List.get?_eq_some.mp hget
        rw [← hg]
        exact hids d.dsid h
      cases hcs : can_schedule_packet B sl d.darr d.dsize
          (calculate_earliest_start_time gldt sl d.darr) with
      | none =>
        simp only [hcs] at hrun
        exact absurd hrun (by simp)
      | some b =>
        simp only [hcs] at hrun
        cases b with
        | true =>
          cases hprv : calculate_packet_priority B sl d.darr d.dsize ct with
          | none =>
            simp only [hprv] at hrun
            exact absurd hrun (by simp)
          | some pv =>
            simp only [hprv] at hrun
            obtain ⟨nr2, nd2, hr, hd, hcount, hce, hcd⟩ := ih _ _ _ _ hrun
            refine ⟨⟨-pv, d.darr, sl.slice_id, d.dpid, d.dsize⟩ :: nr2, nd2,
              by rw [hr, List.append_assoc]; rfl, hd, ?_, ?_, ?_⟩
            · intro pr
              have hIH := hcount pr
              rw [List.map_cons, List.count_cons, List.map_cons, List.count_cons]
              have hee : Entry.pair ⟨-pv, d.darr, sl.slice_id, d.dpid, d.dsize⟩ =
                  DEntry.pair d := by
                simp [Entry.pair, DEntry.pair, hsid]
              rw [hee]
              omega
            · intro e he
              rcases List.mem_cons.mp he with rfl | he
              · exact ⟨d, List.mem_cons_self _ _, hsid, rfl, rfl, rfl⟩
              · obtain ⟨d2, hd2, hrest⟩ := hce e he
                exact ⟨d2, List.mem_cons_of_mem _ hd2, hrest⟩
            · intro d2 hd2
              exact List.mem_cons_of_mem _ (hcd d2 hd2)
        | false =>
          obtain ⟨nr2, nd2, hr, hd, hcount, hce, hcd⟩ := ih _ _ _ _ hrun
          refine ⟨nr2, d :: nd2, hr, by rw [hd, List.append_assoc]; rfl, ?_, ?_, ?_⟩
          · intro pr
            have hIH := hcount pr
            rw [List.map_cons, List.count_cons, List.map_cons, List.count_cons]
            omega
          · intro e he
            obtain ⟨d2, hd2, hrest⟩ := hce e he
            exact ⟨d2, List.mem_cons_of_mem _ hd2, hrest⟩
          · intro d2 hd2
            rcases List.mem_cons.mp hd2 with rfl | hd2
            · exact List.mem_cons_self _ _
            · exact List.mem_cons_of_mem _ (hcd d2 hd2)

end carece

/-! ## Invariant machinery for the huaweicarece.py event loop -/

namespace carece

lemma calcTT_exists (B : ℚ) (s : ℤ) (hB : 0 < B) (hs : 0 ≤ s) :
    ∃ t : ℤ, calculate_transmission_time B s = some t ∧ 0 ≤ t := by
  refine ⟨pyTrunc ((s : ℚ) / B * 1000000000), ?_, ?_⟩
  · unfold calculate_transmission_time
    rw [if_neg (ne_of_gt hB)]
  · have hsq : (0 : ℚ) ≤ (s : ℚ) := by exact_mod_cast hs
    have h0 : (0 : ℚ) ≤ (s : ℚ) / B * 1000000000 :=
      mul_nonneg (div_nonneg hsq (le_of_lt hB)) (by norm_num)
    rw [pyTrunc_of_nonneg _ h0]
    exact Int.le_floor.mpr (by exact_mod_cast h0)

lemma updAt_length (endt : ℤ) : ∀ (ps : List Packet) (i : ℕ),
    (updAt ps i endt).length = ps.length := by
  intro ps
  induction ps with
  | nil => intro i; cases i <;> rfl
  | cons p rest ih =>
    intro i
    cases i with
    | zero => rfl
    | succ k => simpa [updAt] using ih k

lemma updAt_fields (endt : ℤ) : ∀ (ps : List Packet) (i j : ℕ)
    (h : j < (updAt ps i endt).length) (h2 : j < ps.length),
    ((updAt ps i endt).get ⟨j, h⟩).packet_id = (ps.get ⟨j, h2⟩).packet_id ∧
    ((updAt ps i endt).get ⟨j, h⟩).slice_id = (ps.get ⟨j, h2⟩).slice_id ∧
    ((updAt ps i endt).get ⟨j, h⟩).arrival_time = (ps.get ⟨j, h2⟩).arrival_time ∧
    ((updAt ps i endt).get ⟨j, h⟩).size = (ps.get ⟨j, h2⟩).size := by
  intro ps
  induction ps with
  | nil => intro i j h h2; exact absurd h2 (by simp)
  | cons p rest ih =>
    intro i j h h2
    cases i with
    | zero =>
      cases j with
      | zero => exact ⟨rfl, rfl, rfl, rfl⟩
      | succ m => exact ⟨rfl, rfl, rfl, rfl⟩
    | succ k =>
      cases j with
      | zero => exact ⟨rfl, rfl, rfl, rfl⟩
      | succ m =>
        exact ih k m (Nat.lt_of_succ_lt_succ h) (Nat.lt_of_succ_lt_succ h2)

lemma get_set_cases {α : Type} (l : List α) (m : ℕ) (a : α) (n : ℕ)
    (h : n < (l.set m a).length) (h2 : n < l.length) :
    (l.set m a).get ⟨n, h⟩ = if m = n then a else l.get ⟨n, h2⟩ := by
  simp [List.get_eq_getElem, List.getElem_set]

lemma ids_nodup (ss : List Slice)
    (hids : ∀ (i : ℕ) (h : i < ss.length), (ss.get ⟨i, h⟩).slice_id = i) :
    (ss.map Slice.slice_id).Nodup := by
  rw [List.nodup_iff_injective_get]
  intro a b hab
  have ha : (ss.map Slice.slice_id).get a = a.val := by
    rw [List.get_map]
    exact hids a.val (by simpa using a.isLt)
  have hb : (ss.map Slice.slice_id).get b = b.val := by
    rw [List.get_map]
    exact hids b.val (by simpa using b.isLt)
  exact Fin.ext (by rw [← ha, ← hb, hab])

lemma get_of_mem_ids (ss : List Slice)
    (hids : ∀ (i : ℕ) (h : i < ss.length), (ss.get ⟨i, h⟩).slice_id = i)
    (sl : Slice) (hm : sl ∈ ss) : ss.get? sl.slice_id = some sl := by
  obtain ⟨n, hn⟩ := List.mem_iff_get.mp hm
  have hid : sl.slice_id = n.val := by rw [← hn]; exact hids n.val n.isLt
  rw [hid, List.get?_eq_get n.isLt]
  exact congrArg some hn

lemma mem_zip_get {α β : Type} (l1 : List α) (l2 : List β) (q : α × β)
    (hq : q ∈ l1.zip l2) :
    ∃ (i : ℕ) (h1 : i < l1.length) (h2 : i < l2.length),
      q.1 = l1.get ⟨i, h1⟩ ∧ q.2 = l2.get ⟨i, h2⟩ := by
  obtain ⟨n, hn⟩ := List.mem_iff_get.mp hq
  have hl : (n : ℕ) < min l1.length l2.length :=
    lt_of_lt_of_le n.isLt (le_of_eq (List.length_zip l1 l2))
  have h1 : n.val < l1.length := lt_of_lt_of_le hl (min_le_left _ _)
  have h2 : n.val < l2.length := lt_of_lt_of_le hl (min_le_right _ _)
  have hz := @List.get_zip _ _ l1 l2 n
  rw [hn] at hz
  refine ⟨n.val, h1, h2, ?_, ?_⟩
  · rw [hz]
  · rw [hz]

lemma get_mem_zip {α β : Type} (l1 : List α) (l2 : List β) (i : ℕ)
    (h1 : i < l1.length) (h2 : i < l2.length) :
    (l1.get ⟨i, h1⟩, l2.get ⟨i, h2⟩) ∈ l1.zip l2 := by
  have hz : i < (l1.zip l2).length := by rw [List.length_zip]; exact lt_min h1 h2
  rw [List.mem_iff_get]
  exact ⟨⟨i, hz⟩, by rw [List.get_zip]⟩

lemma consEntry_forall₂ (ct : ℤ) (ss ss2 : List Slice)
    (hf : List.Forall₂ (SliceRel ct) ss ss2)
    (sid pid : ℕ) (arr size : ℤ) (hc : ConsEntry ss sid pid arr size) :
    ConsEntry ss2 sid pid arr size := by
  obtain ⟨sl, hget, h, ha, hs⟩ := hc
  obtain ⟨hlen, hgetR⟩ := List.forall₂_iff_get.mp hf
  obtain ⟨hlt, hg⟩ := List.get?_eq_some.mp hget
  have hrel := hgetR sid hlt (hlen ▸ hlt)
  have hpk : (ss2.get ⟨sid, hlen ▸ hlt⟩).packets = sl.packets := by
    rw [hrel.2.1, hg]
  have hlen2 : pid < (ss2.get ⟨sid, hlen ▸ hlt⟩).packets.length := by rw [hpk]; exact h
  refine ⟨ss2.get ⟨sid, hlen ▸ hlt⟩, List.get?_eq_get _, hlen2, ?_, ?_⟩
  · rw [List.get_of_eq hpk ⟨pid, hlen2⟩]; exact ha
  · rw [List.get_of_eq hpk ⟨pid, hlen2⟩]; exact hs

lemma foldl_min_gt (ct : ℤ) : ∀ (l : List ℤ) (a : ℤ), ct < a → (∀ x ∈ l, ct < x) →
    ct < l.foldl min a := by
  intro l
  induction l with
  | nil => intro a ha _; exact ha
  | cons x xs ih =>
    intro a ha hl
    simp only [List.foldl_cons]
    exact ih (min a x) (lt_min ha (hl x (List.mem_cons_self _ _)))
      (fun y hy => hl y (List.mem_cons_of_mem _ hy))

lemma inv_ct_mono (st : SState) (c : ℤ) (hinv : Inv st) (hle : st.current_time ≤ c) :
    Inv { st with current_time := c } := by
  obtain ⟨h1, h2, h3, h4, h5, h6⟩ := hinv
  exact ⟨h1, h2, fun i h => le_trans (h3 i h) hle, h4, h5, h6⟩

lemma mkPackets_length (sid : ℕ) : ∀ (l : List (ℤ × ℤ)) (i : ℕ),
    (mkPackets sid i l).length = l.length := by
  intro l
  induction l with
  | nil => intro i; rfl
  | cons q rest ih => intro i; simpa [mkPackets] using ih (i + 1)

lemma mkPackets_get? (sid : ℕ) : ∀ (l : List (ℤ × ℤ)) (i j : ℕ),
    (mkPackets sid i l).get? j = (l.get? j).map
      (fun q => { slice_id := sid, packet_id := i + j,
                  arrival_time := q.1, size := q.2 }) := by
  intro l
  induction l with
  | nil => intro i j; rfl
  | cons q rest ih =>
    intro i j
    cases j with
    | zero => simp [mkPackets]
    | succ m =>
      have harith : i + (m + 1) = i + 1 + m := by omega
      simp only [mkPackets, List.get?_cons_succ]
      rw [harith, ih (i + 1) m]

lemma mkPackets_fields (sid : ℕ) (l : List (ℤ × ℤ)) (i j : ℕ)
    (h : j < (mkPackets sid i l).length) (h2 : j < l.length) :
    (mkPackets sid i l).get ⟨j, h⟩ =
      { slice_id := sid, packet_id := i + j,
        arrival_time := (l.get ⟨j, h2⟩).1, size := (l.get ⟨j, h2⟩).2 } := by
  have hq := mkPackets_get? sid l i j
  rw [List.get?_eq_get h, List.get?_eq_get h2] at hq
  simpa using hq

lemma mkSlices_length : ∀ (data : List SliceInput) (k : ℕ),
    (mkSlices k data).length = data.length := by
  intro data
  induction data with
  | nil => intro k; rfl
  | cons d rest ih => intro k; simpa [mkSlices] using ih (k + 1)

lemma mkSlices_get? : ∀ (data : List SliceInput) (k i : ℕ),
    (mkSlices k data).get? i = (data.get? i).map
      (fun d => { slice_id := k + i, bandwidth := d.bandwidth,
                  max_delay := d.max_delay,
                  packets := mkPackets (k + i) 0 d.pkts }) := by
  intro data
  induction data with
  | nil => intro k i; rfl
  | cons d rest ih =>
    intro k i
    cases i with
    | zero => simp [mkSlices]
    | succ m =>
      have harith : k + (m + 1) = k + 1 + m := by omega
      simp only [mkSlices, List.get?_cons_succ]
      rw [harith, ih (k + 1) m]

lemma mkSlices_get (data : List SliceInput) (k i : ℕ)
    (h : i < (mkSlices k data).length) (h2 : i < data.length) :
    (mkSlices k data).get ⟨i, h⟩ =
      { slice_id := k + i, bandwidth := (data.get ⟨i, h2⟩).bandwidth,
        max_delay := (data.get ⟨i, h2⟩).max_delay,
        packets := mkPackets (k + i) 0 (data.get ⟨i, h2⟩).pkts } := by
  have hq := mkSlices_get? data k i
  rw [List.get?_eq_get h, List.get?_eq_get h2] at hq
  simpa using hq

lemma sliceLens_initAux : ∀ (data : List SliceInput) (k : ℕ),
    (mkSlices k data).map (fun sl => sl.packets.length) =
      data.map (fun d => d.pkts.length) := by
  intro data
  induction data with
  | nil => intro k; rfl
  | cons d rest ih =>
    intro k
    simp only [mkSlices, List.map_cons]
    rw [mkPackets_length, ih (k + 1)]

end carece

namespace carece

lemma phase_inv (st st1 : SState) (hinv : Inv st) (hp : phaseAB st = some st1) :
    Inv st1 ∧
    st1.current_time = st.current_time ∧
    st1.scheduled_packets = st.scheduled_packets ∧
    st1.last_departure_time = st.last_departure_time ∧
    st1.port_bandwidth = st.port_bandwidth ∧
    sliceLens st1 = sliceLens st ∧
    (∀ (i : ℕ) (h : i < st1.slices.length)
      (hc : (st1.slices.get ⟨i, h⟩).current_packet_idx <
        (st1.slices.get ⟨i, h⟩).packets.length),
      st1.current_time <
        ((st1.slices.get ⟨i, h⟩).packets.get
          ⟨(st1.slices.get ⟨i, h⟩).current_packet_idx, hc⟩).arrival_time) := by
  obtain ⟨hB, hok, hldt, hcount, hconsR, hconsD⟩ := hinv
  unfold phaseAB at hp
  cases hsa : scanAll st.port_bandwidth st.current_time st.last_departure_time
      st.slices st.ready st.delayed with
  | none => simp only [hsa] at hp; exact absurd hp (by simp)
  | some a =>
    obtain ⟨ss2, r1, d1⟩ := a
    simp only [hsa, obind_some] at hp
    cases hrs : rescan st.port_bandwidth st.current_time st.last_departure_time
        ss2 d1 r1 [] with
    | none => simp only [hrs] at hp; exact absurd hp (by simp)
    | some b =>
      obtain ⟨r2, d2⟩ := b
      simp only [hrs, obind_some] at hp
      obtain rfl := (Option.some.inj hp).symm
      have hidsOld : ∀ (i : ℕ) (h : i < st.slices.length),
          (st.slices.get ⟨i, h⟩).slice_id = i := fun i h => (hok i h).1
      have hpid : ∀ sl ∈ st.slices, ∀ (j : ℕ) (h : j < sl.packets.length),
          (sl.packets.get ⟨j, h⟩).packet_id = j := by
        intro sl hm j h
        obtain ⟨n, hn⟩ := List.mem_iff_get.mp hm
        cases hn
        exact ((hok n.val n.isLt).2.2 j h).1
      obtain ⟨hf2, nr, nd, hr1, hd1, hcnt1, hceN, hcdN⟩ :=
        scanAll_spec st.port_bandwidth st.current_time st.last_departure_time
          st.slices st.ready st.delayed ss2 r1 d1 hpid (ids_nodup _ hidsOld) hsa
      have hlen2 : st.slices.length = ss2.length := hf2.length_eq
      have hrelAt := (List.forall₂_iff_get.mp hf2).2
      have hids2 : ∀ (i : ℕ) (h : i < ss2.length), (ss2.get ⟨i, h⟩).slice_id = i := by
        intro i h
        rw [(hrelAt i (hlen2 ▸ h) h).1]
        exact hidsOld i (hlen2 ▸ h)
      have hconsOld_d1 : ∀ d ∈ d1, ConsEntry st.slices d.dsid d.dpid d.darr d.dsize := by
        intro d hd
        rw [hd1] at hd
        rcases List.mem_append.mp hd with hd | hd
        · exact hconsD d hd
        · obtain ⟨sl, hm, hsid, hplt, ha, hs⟩ := hcdN d hd
          exact ⟨sl, by rw [hsid]; exact get_of_mem_ids _ hidsOld sl hm, hplt, ha, hs⟩
      have hcons_d1 : ∀ d ∈ d1, ConsEntry ss2 d.dsid d.dpid d.darr d.dsize :=
        fun d hd => consEntry_forall₂ _ _ _ hf2 _ _ _ _ (hconsOld_d1 d hd)
      have hcons_r1 : ∀ e ∈ r1, ConsEntry ss2 e.sid e.pid e.arr e.psize := by
        intro e he
        rw [hr1] at he
        refine consEntry_forall₂ _ _ _ hf2 _ _ _ _ ?_
        rcases List.mem_append.mp he with he | he
        · exact hconsR e he
        · obtain ⟨sl, hm, hsid, hplt, ha, hs⟩ := hceN e he
          exact ⟨sl, by rw [hsid]; exact get_of_mem_ids _ hidsOld sl hm, hplt, ha, hs⟩
      obtain ⟨nr2, nd2, hr2, hd2, hcnt2, hce2, hcd2⟩ :=
        rescan_spec st.port_bandwidth st.current_time st.last_departure_time
          ss2 hids2 d1 r1 [] r2 d2 hrs
      have hcnt_final : ∀ pr : ℕ × ℕ,
          (pairsOf { st with slices := ss2, ready := r2, delayed := d2 }).count pr =
          if pr.1 < ss2.length ∧
              pr.2 < cursorAt { st with slices := ss2, ready := r2, delayed := d2 } pr.1
          then 1 else 0 := by
        intro pr
        have hco := hcount pr
        have hc1 := hcnt1 pr
        have hc2 := hcnt2 pr
        have e0 : (pairsOf st).count pr =
            (st.ready.map Entry.pair).count pr + (st.delayed.map DEntry.pair).count pr +
              (st.scheduled_packets.map tripPair).count pr := by
          simp only [pairsOf, List.count_append]
        have e1 : (pairsOf { st with slices := ss2, ready := r2, delayed := d2 }).count pr =
            (r2.map Entry.pair).count pr + (d2.map DEntry.pair).count pr +
              (st.scheduled_packets.map tripPair).count pr := by
          simp only [pairsOf, List.count_append]
        have e2 : (r2.map Entry.pair).count pr =
            (st.ready.map Entry.pair).count pr + (nr.map Entry.pair).count pr +
              (nr2.map Entry.pair).count pr := by
          rw [hr2, hr1]
          simp only [List.map_append, List.count_append]
        have e3 : (d2.map DEntry.pair).count pr = (nd2.map DEntry.pair).count pr := by
          rw [hd2]
          simp only [List.nil_append]
        have e4 : (d1.map DEntry.pair).count pr =
            (st.delayed.map DEntry.pair).count pr + (nd.map DEntry.pair).count pr := by
          rw [hd1]
          simp only [List.map_append, List.count_append]
        have hTot : (pairsOf { st with slices := ss2, ready := r2, delayed := d2 }).count pr =
            (pairsOf st).count pr +
              ((nr.map Entry.pair).count pr + (nd.map DEntry.pair).count pr) := by
          rw [e1, e2, e3, e0]
          rw [e4] at hc2
          omega
        rw [hTot, hco, hc1]
        by_cases hA : pr.1 < st.slices.length
        · have hA2 : pr.1 < ss2.length := hlen2 ▸ hA
          have hrel := hrelAt pr.1 hA hA2
          have hord : (st.slices.get ⟨pr.1, hA⟩).current_packet_idx ≤
              (ss2.get ⟨pr.1, hA2⟩).current_packet_idx := hrel.2.2.2.2.2.1
          have hcursOld : cursorAt st pr.1 =
              (st.slices.get ⟨pr.1, hA⟩).current_packet_idx := by
            show ((st.slices.get? pr.1).map Slice.current_packet_idx).getD 0 = _
            rw [List.get?_eq_get hA]
            rfl
          have hcursNew : cursorAt { st with slices := ss2, ready := r2, delayed := d2 } pr.1 =
              (ss2.get ⟨pr.1, hA2⟩).current_packet_idx := by
            show ((ss2.get? pr.1).map Slice.current_packet_idx).getD 0 = _
            rw [List.get?_eq_get hA2]
            rfl
          have hzip_pos : (st.slices.get ⟨pr.1, hA⟩).current_packet_idx ≤ pr.2 →
              pr.2 < (ss2.get ⟨pr.1, hA2⟩).current_packet_idx →
              ∃ q ∈ st.slices.zip ss2, pr.1 = q.1.slice_id ∧
                q.1.current_packet_idx ≤ pr.2 ∧ pr.2 < q.2.current_packet_idx := by
            intro hc1 hc2
            exact ⟨(st.slices.get ⟨pr.1, hA⟩, ss2.get ⟨pr.1, hA2⟩),
              get_mem_zip _ _ _ hA hA2, (hidsOld pr.1 hA).symm, hc1, hc2⟩
          have hzip_neg : ¬((st.slices.get ⟨pr.1, hA⟩).current_packet_idx ≤ pr.2 ∧
              pr.2 < (ss2.get ⟨pr.1, hA2⟩).current_packet_idx) →
              ¬ ∃ q ∈ st.slices.zip ss2, pr.1 = q.1.slice_id ∧
                q.1.current_packet_idx ≤ pr.2 ∧ pr.2 < q.2.current_packet_idx := by
            intro hc
            rintro ⟨q, hq, hq1, hq2, hq3⟩
            obtain ⟨i, h1, h2, hqa, hqb⟩ := mem_zip_get _ _ q hq
            have hieq : pr.1 = i := by rw [hq1, hqa]; exact hidsOld i h1
            subst hieq
            rw [hqa] at hq2
            rw [hqb] at hq3
            exact hc ⟨hq2, hq3⟩
          rw [hcursOld, hcursNew]
          by_cases hB1 : pr.2 < (st.slices.get ⟨pr.1, hA⟩).current_packet_idx
          · rw [if_pos ⟨hA, hB1⟩, if_neg (hzip_neg (by omega)), if_pos ⟨hA2, by omega⟩]
          · by_cases hB2 : pr.2 < (ss2.get ⟨pr.1, hA2⟩).current_packet_idx
            · rw [if_neg (fun h => hB1 h.2),
                if_pos (hzip_pos (le_of_not_lt hB1) hB2), if_pos ⟨hA2, hB2⟩]
            · rw [if_neg (fun h => hB1 h.2), if_neg (hzip_neg (fun h => hB2 h.2)),
                if_neg (fun h => hB2 h.2)]
        · have hA2 : ¬ pr.1 < ss2.length := fun h => hA (by omega)
          have hzip_neg2 : ¬ ∃ q ∈ st.slices.zip ss2, pr.1 = q.1.slice_id ∧
              q.1.current_packet_idx ≤ pr.2 ∧ pr.2 < q.2.current_packet_idx := by
            rintro ⟨q, hq, hq1, hq2, hq3⟩
            obtain ⟨i, h1, h2, hqa, hqb⟩ := mem_zip_get _ _ q hq
            have hieq : pr.1 = i := by rw [hq1, hqa]; exact hidsOld i h1
            exact hA (hieq ▸ h1)
          rw [if_neg (fun h => hA h.1), if_neg hzip_neg2, if_neg (fun h => hA2 h.1)]
      refine ⟨⟨hB, ?_, ?_, hcnt_final, ?_, ?_⟩, rfl, rfl, rfl, rfl, ?_, ?_⟩
      · intro i h
        have hi : i < st.slices.length := by rw [hlen2]; exact h
        have hrel := hrelAt i hi h
        obtain ⟨o1, o2, o3⟩ := hok i hi
        show SliceOK i (ss2.get ⟨i, h⟩)
        refine ⟨(hrel.1).trans o1, ?_, ?_⟩
        · have hb := hrel.2.2.2.2.2.2.1 o2
          rw [hrel.2.1]
          exact hb
        · intro j hj
          have hj2 : j < (st.slices.get ⟨i, hi⟩).packets.length := by
            rw [← hrel.2.1]; exact hj
          rw [List.get_of_eq hrel.2.1 ⟨j, hj⟩]
          exact o3 j hj2
      · intro i h
        have hi : i < st.slices.length := by rw [hlen2]; exact h
        have hrel := hrelAt i hi h
        show (ss2.get ⟨i, h⟩).last_departure_time ≤ st.current_time
        rw [hrel.2.2.2.2.1]
        exact hldt i hi
      · intro e he
        have he2 : e ∈ r2 := he
        rw [hr2] at he2
        rcases List.mem_append.mp he2 with he2 | he2
        · exact hcons_r1 e he2
        · obtain ⟨d, hd, h1, h2, h3, h4⟩ := hce2 e he2
          show ConsEntry ss2 e.sid e.pid e.arr e.psize
          rw [h1, h2, h3, h4]
          exact hcons_d1 d hd
      · intro d hd
        have hd2' : d ∈ d2 := hd
        rw [hd2] at hd2'
        exact hcons_d1 d (hcd2 d (by simpa using hd2'))
      · show ss2.map (fun sl => sl.packets.length) =
          st.slices.map (fun sl => sl.packets.length)
        apply List.ext_get
        · simp only [List.length_map]
          omega
        · intro n h1 h2
          rw [List.get_map, List.get_map]
          rw [(hrelAt n (by simpa using h2) (by simpa using h1)).2.1]
      · intro i h hc
        have hi : i < st.slices.length := by rw [hlen2]; exact h
        have hrel := hrelAt i hi h
        have hcpi_lt : (ss2.get ⟨i, h⟩).current_packet_idx <
            (st.slices.get ⟨i, hi⟩).packets.length := by
          rw [← hrel.2.1]; exact hc
        have harr := hrel.2.2.2.2.2.2.2 hcpi_lt
        show st.current_time <
          ((ss2.get ⟨i, h⟩).packets.get ⟨(ss2.get ⟨i, h⟩).current_packet_idx, hc⟩).arrival_time
        rw [List.get_of_eq hrel.2.1 ⟨(ss2.get ⟨i, h⟩).current_packet_idx, hc⟩]
        exact harr

end carece


namespace carece

lemma get_eq_of_get? {α : Type} (l : List α) (n : ℕ) (a : α)
    (h : l.get? n = some a) (h2 : n < l.length) : l.get ⟨n, h2⟩ = a := by
  rw [List.get?_eq_get h2] at h
  exact Option.some.inj h

lemma popMin_perm (l : List Entry) (e : Entry) (rest : List Entry)
    (h : popMin l = some (e, rest)) : l.Perm (e :: rest) ∧ e ∈ l := by
  cases l with
  | nil => exact absurd h (by simp [popMin])
  | cons x xs =>
    have h' : some (minEntry x xs, (x :: xs).erase (minEntry x xs)) = some (e, rest) := h
    have h2 := Option.some.inj h'
    have he : minEntry x xs = e := congrArg Prod.fst h2
    have hr : (x :: xs).erase (minEntry x xs) = rest := congrArg Prod.snd h2
    have hm : e ∈ x :: xs := he ▸ minEntry_mem x xs
    refine ⟨?_, hm⟩
    rw [← hr, he]
    exact List.perm_cons_erase hm

lemma consEntry_set (slices : List Slice) (m : ℕ) (sl sl1 : Slice)
    (hget : slices.get? m = some sl)
    (hlen : sl1.packets.length = sl.packets.length)
    (hfields : ∀ (j : ℕ) (h : j < sl1.packets.length) (h2 : j < sl.packets.length),
      (sl1.packets.get ⟨j, h⟩).arrival_time = (sl.packets.get ⟨j, h2⟩).arrival_time ∧
      (sl1.packets.get ⟨j, h⟩).size = (sl.packets.get ⟨j, h2⟩).size)
    (sid pid : ℕ) (arr size : ℤ)
    (hc : ConsEntry slices sid pid arr size) :
    ConsEntry (slices.set m sl1) sid pid arr size := by
  obtain ⟨sl2, hget2, hplt2, ha2, hs2⟩ := hc
  by_cases hcase : m = sid
  · subst hcase
    obtain rfl : sl2 = sl := by
      rw [hget] at hget2
      exact (Option.some.inj hget2).symm
    have hplt1 : pid < sl1.packets.length := by rw [hlen]; exact hplt2
    refine ⟨sl1, ?_, hplt1, ?_, ?_⟩
    · rw [List.get?_set, if_pos rfl, hget]
      rfl
    · rw [(hfields pid hplt1 hplt2).1]
      exact ha2
    · rw [(hfields pid hplt1 hplt2).2]
      exact hs2
  · refine ⟨sl2, ?_, hplt2, ha2, hs2⟩
    rw [List.get?_set, if_neg hcase]
    exact hget2

lemma count_perm {α : Type} [BEq α] {l1 l2 : List α} (h : l1.Perm l2) (x : α) :
    l1.count x = l2.count x := by
  induction h with
  | nil => rfl
  | cons a h ih => simp only [List.count_cons, ih]
  | swap a b l => simp only [List.count_cons]; omega
  | trans h1 h2 ih1 ih2 => rw [ih1, ih2]

lemma commit_inv (st : SState) (e : Entry) (rest : List Entry) (hinv : Inv st)
    (hpop : popMin st.ready = some (e, rest)) :
    ∃ (t : ℤ) (sl : Slice) (st2 : SState),
      calculate_transmission_time st.port_bandwidth e.psize = some t ∧ 0 ≤ t ∧
      st.slices.get? e.sid = some sl ∧
      commitOn st e rest = some st2 ∧
      Inv st2 ∧ sliceLens st2 = sliceLens st ∧
      st.current_time ≤ st2.current_time ∧
      st2.current_time = max st.current_time e.arr + t ∧
      st2.scheduled_packets = st.scheduled_packets ++ [(st2.current_time, e.sid, e.pid)] ∧
      (st2.slices.get? e.sid).map Slice.last_departure_time = some st2.current_time := by
  obtain ⟨hB, hok, hldt, hcount, hconsR, hconsD⟩ := hinv
  obtain ⟨hperm, hmem⟩ := popMin_perm st.ready e rest hpop
  obtain ⟨sl, hget, hplt, harr, hsz⟩ := hconsR e hmem
  obtain ⟨hsidlt, hgeteq⟩ := List.get?_eq_some.mp hget
  have hpkEq : (st.slices.get ⟨e.sid, hsidlt⟩).packets = sl.packets := by rw [hgeteq]
  have hjS : e.pid < (st.slices.get ⟨e.sid, hsidlt⟩).packets.length := by
    rw [hpkEq]; exact hplt
  have hszn : 0 ≤ e.psize := by
    have h3 := ((hok e.sid hsidlt).2.2 e.pid hjS).2.2
    rw [List.get_of_eq hpkEq ⟨e.pid, hjS⟩] at h3
    rw [← hsz]
    exact h3
  obtain ⟨t, htt, ht0⟩ := calcTT_exists st.port_bandwidth e.psize hB hszn
  have hco : commitOn st e rest = some
      { st with
        slices := st.slices.set e.sid
          { sl with packets := updAt sl.packets e.pid (max st.current_time e.arr + t),
                    last_departure_time := max st.current_time e.arr + t },
        scheduled_packets :=
          st.scheduled_packets ++ [(max st.current_time e.arr + t, e.sid, e.pid)],
        current_time := max st.current_time e.arr + t,
        last_departure_time := max st.current_time e.arr + t,
        ready := rest } := by
    unfold commitOn
    rw [htt]
    simp only [obind_some]
    rw [hget]
    simp only [obind_some]
  have hcurs : ∀ i, cursorAt
      { st with
        slices := st.slices.set e.sid
          { sl with packets := updAt sl.packets e.pid (max st.current_time e.arr + t),
                    last_departure_time := max st.current_time e.arr + t },
        scheduled_packets :=
          st.scheduled_packets ++ [(max st.current_time e.arr + t, e.sid, e.pid)],
        current_time := max st.current_time e.arr + t,
        last_departure_time := max st.current_time e.arr + t,
        ready := rest } i = cursorAt st i := by
    intro i
    show (((st.slices.set e.sid _).get? i).map Slice.current_packet_idx).getD 0 = cursorAt st i
    rw [List.get?_set]
    by_cases hcase : e.sid = i
    · rw [if_pos hcase]
      subst hcase
      rw [hget]
      show sl.current_packet_idx = cursorAt st e.sid
      unfold cursorAt
      rw [hget]
      rfl
    · rw [if_neg hcase]
      rfl
  refine ⟨t, sl, _, htt, ht0, hget, hco, ⟨hB, ?_, ?_, ?_, ?_, ?_⟩, ?_, ?_, rfl, rfl, ?_⟩
  · -- SliceOK after the commit
    intro i h
    have hi : i < st.slices.length := by simpa using h
    show SliceOK i ((st.slices.set e.sid _).get ⟨i, h⟩)
    rw [get_set_cases st.slices e.sid _ i h hi]
    by_cases hcase : e.sid = i
    · rw [if_pos hcase]
      obtain ⟨o1, o2, o3⟩ := hok i hi
      have hsleq : st.slices.get ⟨i, hi⟩ = sl := by
        apply get_eq_of_get? st.slices i sl _ hi
        rw [← hcase]
        exact hget
      refine ⟨?_, ?_, ?_⟩
      · show sl.slice_id = i
        rw [← hsleq]
        exact o1
      · show sl.current_packet_idx ≤ (updAt sl.packets e.pid _).length
        rw [updAt_length]
        have h2 := o2
        rw [hsleq] at h2
        exact h2
      · intro j hj
        have hj2 : j < sl.packets.length := by
          have h2 := hj
          rw [updAt_length] at h2
          exact h2
        have hjO : j < (st.slices.get ⟨i, hi⟩).packets.length := by
          rw [congrArg Slice.packets hsleq]
          exact hj2
        have o3' := o3 j hjO
        rw [List.get_of_eq (congrArg Slice.packets hsleq) ⟨j, hjO⟩] at o3'
        obtain ⟨f1, f2, f3, f4⟩ := updAt_fields _ sl.packets e.pid j hj hj2
        exact ⟨by rw [f1]; exact o3'.1, by rw [f2]; exact o3'.2.1, by rw [f4]; exact o3'.2.2⟩
    · rw [if_neg hcase]
      exact hok i hi
  · -- last departure times never ahead of the new clock
    intro i h
    have hi : i < st.slices.length := by simpa using h
    show ((st.slices.set e.sid _).get ⟨i, h⟩).last_departure_time ≤
      max st.current_time e.arr + t
    rw [get_set_cases st.slices e.sid _ i h hi]
    by_cases hcase : e.sid = i
    · rw [if_pos hcase]
    · rw [if_neg hcase]
      have h2 := hldt i hi
      omega
  · -- the key-count invariant
    intro pr
    have hpc := count_perm (hperm.map Entry.pair) pr
    simp only [List.map_cons, List.count_cons] at hpc
    have hco2 := hcount pr
    simp only [pairsOf, List.count_append] at hco2
    show (pairsOf _).count pr = _
    simp only [pairsOf, List.map_append, List.count_append, List.map_cons, List.map_nil,
      List.count_cons, List.count_nil, List.length_set, hcurs]
    rw [show tripPair (max st.current_time e.arr + t, e.sid, e.pid) = Entry.pair e from rfl]
    omega
  · -- queued keys stay consistent (ready side)
    intro e2 he2
    have he3 : e2 ∈ st.ready := hperm.mem_iff.mpr (List.mem_cons_of_mem _ he2)
    exact consEntry_set st.slices e.sid sl _ hget (updAt_length _ _ _)
      (fun j h h2 => ⟨(updAt_fields _ sl.packets e.pid j h h2).2.2.1,
        (updAt_fields _ sl.packets e.pid j h h2).2.2.2⟩) _ _ _ _ (hconsR e2 he3)
  · -- queued keys stay consistent (deferred side)
    intro d hd
    exact consEntry_set st.slices e.sid sl _ hget (updAt_length _ _ _)
      (fun j h h2 => ⟨(updAt_fields _ sl.packets e.pid j h h2).2.2.1,
        (updAt_fields _ sl.packets e.pid j h h2).2.2.2⟩) _ _ _ _ (hconsD d hd)
  · -- packet counts per slice are unchanged
    show (st.slices.set e.sid _).map (fun sl => sl.packets.length) =
      st.slices.map (fun sl => sl.packets.length)
    apply List.ext_get
    · simp only [List.length_map, List.length_set]
    · intro n h1 h2
      rw [List.get_map, List.get_map]
      have hn : n < st.slices.length := by simpa using h2
      rw [get_set_cases st.slices e.sid _ n (by simpa using h1) hn]
      by_cases hcase : e.sid = n
      · rw [if_pos hcase]
        show (updAt sl.packets e.pid _).length = _
        rw [updAt_length]
        have hsleq : st.slices.get ⟨n, hn⟩ = sl := by
          apply get_eq_of_get? st.slices n sl _ hn
          rw [← hcase]
          exact hget
        rw [hsleq]
      · rw [if_neg hcase]
  · -- the clock moves forward
    show st.current_time ≤ max st.current_time e.arr + t
    omega
  · -- the committed slice records the departure
    show ((st.slices.set e.sid _).get? e.sid).map Slice.last_departure_time = _
    rw [List.get?_set, if_pos rfl, hget]
    rfl

lemma idle_inv (st : SState) (hinv : Inv st)
    (hblk : ∀ (i : ℕ) (h : i < st.slices.length)
      (hc : (st.slices.get ⟨i, h⟩).current_packet_idx <
        (st.slices.get ⟨i, h⟩).packets.length),
      st.current_time < ((st.slices.get ⟨i, h⟩).packets.get
        ⟨(st.slices.get ⟨i, h⟩).current_packet_idx, hc⟩).arrival_time) :
    Inv (idleAdvance st) ∧ st.current_time < (idleAdvance st).current_time ∧
    (idleAdvance st).scheduled_packets = st.scheduled_packets ∧
    sliceLens (idleAdvance st) = sliceLens st := by
  have hcands : ∀ a ∈ st.slices.filterMap
      (fun sl => (sl.packets.get? sl.current_packet_idx).map (·.arrival_time)),
      st.current_time < a := by
    intro a ha
    obtain ⟨sl, hm, hfa⟩ := List.mem_filterMap.mp ha
    obtain ⟨n, hn⟩ := List.mem_iff_get.mp hm
    cases hn
    cases hgp : (st.slices.get n).packets.get? (st.slices.get n).current_packet_idx with
    | none => rw [hgp] at hfa; exact absurd hfa (by simp)
    | some p =>
      rw [hgp] at hfa
      have hpa : p.arrival_time = a := by simpa using hfa
      obtain ⟨hlt, hge⟩ := List.get?_eq_some.mp hgp
      have hb := hblk n.val n.isLt hlt
      rw [hge] at hb
      rw [← hpa]
      exact hb
  cases hc : st.slices.filterMap
      (fun sl => (sl.packets.get? sl.current_packet_idx).map (·.arrival_time)) with
  | nil =>
    have hx : idleAdvance st = { st with current_time := st.current_time + 1 } := by
      unfold idleAdvance
      rw [hc]
    rw [hx]
    exact ⟨inv_ct_mono st _ hinv (by omega), lt_add_one st.current_time, rfl, rfl⟩
  | cons a rest =>
    have hlt : st.current_time < rest.foldl min a :=
      foldl_min_gt _ rest a (hcands a (by rw [hc]; exact List.mem_cons_self _ _))
        (fun x hx => hcands x (by rw [hc]; exact List.mem_cons_of_mem _ hx))
    have hx : idleAdvance st = { st with current_time := rest.foldl min a } := by
      unfold idleAdvance
      rw [hc]
    rw [hx]
    exact ⟨inv_ct_mono st _ hinv (le_of_lt hlt), hlt, rfl, rfl⟩

end carece

namespace carece

lemma step_inv (st st2 : SState) (hinv : Inv st) (hstep : StepsTo st st2) :
    Inv st2 ∧ sliceLens st2 = sliceLens st := by
  unfold StepsTo at hstep
  unfold loopBody at hstep
  cases hpa : phaseAB st with
  | none => simp only [hpa] at hstep; exact absurd hstep (by simp)
  | some st1 =>
    simp only [hpa, obind_some] at hstep
    obtain ⟨hinv1, hct, hsched, hldt1, hbw, hlens, hblk⟩ := phase_inv st st1 hinv hpa
    cases hpop : popMin st1.ready with
    | none =>
      simp only [hpop] at hstep
      cases hcond : (st1.delayed.isEmpty && st1.slices.all fun sl => !sl.has_more_packets) with
      | true =>
        simp only [hcond] at hstep
        exact absurd hstep (by simp)
      | false =>
        simp only [hcond] at hstep
        obtain rfl : idleAdvance st1 = st2 := by
          have h2 := Option.some.inj hstep
          exact Step.cont.inj h2
        obtain ⟨g1, g2, g3, g4⟩ := idle_inv st1 hinv1 hblk
        exact ⟨g1, g4.trans hlens⟩
    | some pe =>
      obtain ⟨e, rest⟩ := pe
      simp only [hpop] at hstep
      obtain ⟨t, sl, st2c, htt, ht0, hget, hco, hinv2, hlens2, hctle, hcteq, hsched2, hldt2⟩ :=
        commit_inv st1 e rest hinv1 hpop
      simp only [hco, obind_some] at hstep
      obtain rfl : st2c = st2 := Step.cont.inj (Option.some.inj hstep)
      exact ⟨hinv2, hlens2.trans hlens⟩

lemma reaches_inv (st st2 : SState) (hinv : Inv st) (hr : Reaches st st2) :
    Inv st2 ∧ sliceLens st2 = sliceLens st := by
  induction hr with
  | refl => exact ⟨hinv, rfl⟩
  | tail hab hbc ih =>
    obtain ⟨h1, h2⟩ := ih
    obtain ⟨g1, g2⟩ := step_inv _ _ h1 hbc
    exact ⟨g1, g2.trans h2⟩

lemma halt_dest (st stf : SState) (hinv : Inv st)
    (h : loopBody st = some (.halt stf)) :
    Inv stf ∧ sliceLens stf = sliceLens st ∧ stf.ready = [] ∧ stf.delayed = [] ∧
    (∀ (i : ℕ) (hh : i < stf.slices.length),
      (stf.slices.get ⟨i, hh⟩).current_packet_idx =
        (stf.slices.get ⟨i, hh⟩).packets.length) := by
  unfold loopBody at h
  cases hpa : phaseAB st with
  | none => simp only [hpa] at h; exact absurd h (by simp)
  | some st1 =>
    simp only [hpa, obind_some] at h
    obtain ⟨hinv1, hct, hsched, hldt1, hbw, hlens, hblk⟩ := phase_inv st st1 hinv hpa
    cases hpop : popMin st1.ready with
    | some pe =>
      obtain ⟨e, rest⟩ := pe
      simp only [hpop] at h
      cases hcom : commitOn st1 e rest with
      | none => simp only [hcom] at h; exact absurd h (by simp)
      | some st2 =>
        simp only [hcom, obind_some] at h
        exact absurd h (by simp)
    | none =>
      simp only [hpop] at h
      cases hcond : (st1.delayed.isEmpty && st1.slices.all fun sl => !sl.has_more_packets) with
      | false =>
        simp only [hcond] at h
        exact absurd h (by simp)
      | true =>
        simp only [hcond] at h
        obtain rfl : st1 = stf := Step.halt.inj (Option.some.inj h)
        simp only [Bool.and_eq_true] at hcond
        have hready : st1.ready = [] := by
          cases hre : st1.ready with
          | nil => rfl
          | cons x xs =>
            rw [hre] at hpop
            simp [popMin] at hpop
        have hdel : st1.delayed = [] := by
          have h2 := hcond.1
          simpa [List.isEmpty_iff] using h2
        refine ⟨hinv1, hlens, hready, hdel, ?_⟩
        intro i hh
        have hmem : st1.slices.get ⟨i, hh⟩ ∈ st1.slices :=
          List.mem_iff_get.mpr ⟨⟨i, hh⟩, rfl⟩
        have h2 := List.all_eq_true.mp hcond.2 _ hmem
        have h3 : ¬ ((st1.slices.get ⟨i, hh⟩).current_packet_idx <
            (st1.slices.get ⟨i, hh⟩).packets.length) := by
          simpa [Slice.has_more_packets] using h2
        have h4 := (hinv1.2.1 i hh).2.1
        omega

lemma run_finished_dest : ∀ (n : ℕ) (st stf : SState), run n st = .finished stf →
    ∃ st1, Reaches st st1 ∧ loopBody st1 = some (.halt stf) := by
  intro n
  induction n with
  | zero => intro st stf h; exact absurd h (by simp [run])
  | succ k ih =>
    intro st stf h
    cases hl : loopBody st with
    | none =>
      rw [show run (k + 1) st = .crashed from by simp only [run]; rw [hl]] at h
      exact absurd h (by simp)
    | some s =>
      cases s with
      | halt st1 =>
        rw [run_halt_step k st st1 hl] at h
        obtain rfl : st1 = stf := RunRes.finished.inj h
        exact ⟨st, Relation.ReflTransGen.refl, hl⟩
      | cont st1 =>
        rw [run_cont_step k st st1 hl] at h
        obtain ⟨st2, hr, hh⟩ := ih st1 stf h
        exact ⟨st2, Relation.ReflTransGen.head hl hr, hh⟩

lemma sliceLens_init (bw : ℚ) (data : List SliceInput) :
    sliceLens (initState bw data) = data.map (fun d => d.pkts.length) := by
  show (mkSlices 0 data).map (fun sl => sl.packets.length) = _
  exact sliceLens_initAux data 0

lemma init_inv (bw : ℚ) (data : List SliceInput) (hbw : 0 < bw)
    (hsz : ∀ d ∈ data, ∀ q ∈ d.pkts, 0 ≤ q.2) :
    Inv (initState bw data) := by
  refine ⟨?_, ?_, ?_, ?_, ?_, ?_⟩
  · show (0 : ℚ) < bw * 1000000000
    exact mul_pos hbw (by norm_num)
  · intro i h
    have h' : i < (mkSlices 0 data).length := h
    have hi : i < data.length := by rw [← mkSlices_length data 0]; exact h'
    show SliceOK i ((mkSlices 0 data).get ⟨i, h'⟩)
    rw [mkSlices_get data 0 i h' hi]
    refine ⟨Nat.zero_add i, Nat.zero_le _, ?_⟩
    intro j hj
    have hj' : j < (data.get ⟨i, hi⟩).pkts.length := by
      have hj2 : j < (mkPackets (0 + i) 0 (data.get ⟨i, hi⟩).pkts).length := hj
      have hpl := mkPackets_length (0 + i) (data.get ⟨i, hi⟩).pkts 0
      omega
    rw [mkPackets_fields (0 + i) _ 0 j hj hj']
    refine ⟨Nat.zero_add j, Nat.zero_add i, ?_⟩
    exact hsz _ (List.mem_iff_get.mpr ⟨⟨i, hi⟩, rfl⟩) _
      (List.mem_iff_get.mpr ⟨⟨j, hj'⟩, rfl⟩)
  · intro i h
    have h' : i < (mkSlices 0 data).length := h
    have hi : i < data.length := by rw [← mkSlices_length data 0]; exact h'
    show ((mkSlices 0 data).get ⟨i, h'⟩).last_departure_time ≤ 0
    rw [mkSlices_get data 0 i h' hi]
  · intro pr
    have hz : pairsOf (initState bw data) = [] := rfl
    rw [hz, List.count_nil]
    rw [if_neg ?_]
    rintro ⟨h1, h2⟩
    have h1' : pr.1 < (mkSlices 0 data).length := h1
    have hi : pr.1 < data.length := by rw [← mkSlices_length data 0]; exact h1'
    have hcz : cursorAt (initState bw data) pr.1 = 0 := by
      show (((mkSlices 0 data).get? pr.1).map Slice.current_packet_idx).getD 0 = 0
      rw [List.get?_eq_get h1']
      rw [mkSlices_get data 0 pr.1 h1' hi]
      rfl
    omega
  · intro e he
    exact absurd he (List.not_mem_nil e)
  · intro d hd
    exact absurd hd (List.not_mem_nil d)

end carece

/-! ## C3, C4 (amended), C5 and C10: theorems about actual runs -/

/-- The input of the commit fixtures: one slice, bandwidth 1 Gbps,
max delay 100 ns, a single 10-bit packet arriving at time 0. -/
def c3Data : List carece.SliceInput := [⟨1, 100, [(0, 10)]⟩]

def c3Init : carece.SState := carece.initState 1 c3Data

/-- The state reached from `c3Init` by the admission phase of the first
iteration: the packet sits in the ReadyQueue with priority `203/500`. -/
def c3Mid : carece.SState :=
  ⟨1000000000, 0, [⟨0, 1, 100, [⟨0, 0, 0, 10, false, 0⟩], 1, 0⟩], [], 0,
   [⟨-(203/500), 0, 0, 0, 10⟩], []⟩

def c3Entry : Entry := ⟨-(203/500), 0, 0, 0, 10⟩

/-- The state after the first iteration commits the packet: it departs at
time 10. -/
def c3Fin : carece.SState :=
  ⟨1000000000, 10, [⟨0, 1, 100, [⟨0, 0, 0, 10, true, 10⟩], 1, 10⟩],
   [(10, 0, 0)], 10, [], []⟩

lemma c3_phase : carece.phaseAB c3Init = some c3Mid := by
  norm_num [carece.phaseAB, carece.scanAll, carece.scanSliceAux, carece.rescan,
    carece.can_schedule_packet, carece.calculate_packet_priority,
    carece.calculate_earliest_start_time, calculate_transmission_time, pyTrunc,
    carece.initState, carece.mkSlices, carece.mkPackets, c3Init, c3Data, c3Mid]

lemma c3_pop : popMin c3Mid.ready = some (c3Entry, []) := by
  show popMin [c3Entry] = some (c3Entry, [])
  simp [popMin, minEntry, List.erase_cons_head]

lemma c3_step : carece.loopBody c3Init = some (.cont c3Fin) := by
  norm_num [carece.loopBody, carece.phaseAB, carece.scanAll, carece.scanSliceAux,
    carece.rescan, carece.can_schedule_packet, carece.calculate_packet_priority,
    carece.calculate_earliest_start_time, calculate_transmission_time, pyTrunc,
    carece.commitOn, carece.idleAdvance, carece.updAt, popMin, minEntry, entryLE,
    bstep, carece.initState, carece.mkSlices, carece.mkPackets, c3Init, c3Data,
    c3Fin, Slice.has_more_packets, Slice.peek_next_packet]

lemma c3_halt : carece.loopBody c3Fin = some (.halt c3Fin) := by
  norm_num [carece.loopBody, carece.phaseAB, carece.scanAll, carece.scanSliceAux,
    carece.rescan, carece.can_schedule_packet, carece.calculate_packet_priority,
    carece.calculate_earliest_start_time, calculate_transmission_time, pyTrunc,
    carece.commitOn, carece.idleAdvance, carece.updAt, popMin, minEntry, entryLE,
    bstep, c3Fin, Slice.has_more_packets, Slice.peek_next_packet]

lemma c3_run : carece.run 2 (carece.initState 1 c3Data) = .finished c3Fin := by
  rw [show carece.initState 1 c3Data = c3Init from rfl]
  rw [carece.run_cont_step 1 _ _ c3_step, carece.run_halt_step 0 _ _ c3_halt]

lemma c3_sizes : ∀ d ∈ c3Data, ∀ q ∈ d.pkts, (0 : ℤ) ≤ q.2 := by
  intro d hd q hq
  simp only [c3Data, List.mem_singleton] at hd
  subst hd
  simp only [List.mem_singleton] at hq
  subst hq
  norm_num

lemma nodup_of_count_le_one (l : List (ℕ × ℕ))
    (h : ∀ pr : ℕ × ℕ, l.count pr ≤ 1) : l.Nodup := by
  induction l with
  | nil => exact List.nodup_nil
  | cons x xs ih =>
    rw [List.nodup_cons]
    constructor
    · intro hmem
      have h2 := h x
      rw [List.count_cons] at h2
      have h3 : 0 < xs.count x := List.count_pos_iff_mem.mpr hmem
      simp at h2
      omega
    · apply ih
      intro pr
      have h2 := h pr
      rw [List.count_cons] at h2
      omega

/-- C3: along every run of huaweicarece.py's `schedule_packets` from a
well-formed input (positive port bandwidth, nonnegative packet sizes),
whenever an iteration pops an entry off the ReadyQueue and commits it, the
start time equals `max(currentTime, arrivalTime, slice.lastDepartureTime)`
— the code computes only `max(currentTime, arrivalTime)`, but the two
coincide because a slice's last departure never exceeds the clock — the end
time is `start + transmissionTime(size)`, the triple
`(endTime, sliceId, packetId)` is appended to the schedule log, the slice
records the departure, and `currentTime` is set to `endTime`. -/
theorem C3_commit_semantics (bw : ℚ) (data : List carece.SliceInput)
    (hbw : 0 < bw) (hsz : ∀ d ∈ data, ∀ q ∈ d.pkts, 0 ≤ q.2)
    (st st1 : carece.SState) (hr : carece.Reaches (carece.initState bw data) st)
    (hphase : carece.phaseAB st = some st1)
    (e : Entry) (rest : List Entry) (hpop : popMin st1.ready = some (e, rest)) :
    ∃ (t : ℤ) (sl : Slice) (st2 : carece.SState),
      calculate_transmission_time st1.port_bandwidth e.psize = some t ∧
      st1.slices.get? e.sid = some sl ∧
      carece.commitOn st1 e rest = some st2 ∧
      carece.loopBody st = some (.cont st2) ∧
      st2.current_time = max st1.current_time (max e.arr sl.last_departure_time) + t ∧
      st2.scheduled_packets = st1.scheduled_packets ++ [(st2.current_time, e.sid, e.pid)] ∧
      (st2.slices.get? e.sid).map Slice.last_departure_time = some st2.current_time := by
  obtain ⟨hinv, _⟩ := carece.reaches_inv _ _ (carece.init_inv bw data hbw hsz) hr
  obtain ⟨hinv1, _, _, _, _, _, _⟩ := carece.phase_inv st st1 hinv hphase
  obtain ⟨t, sl, st2, htt, ht0, hget, hco, _, _, _, hcteq, hsched2, hldt2⟩ :=
    carece.commit_inv st1 e rest hinv1 hpop
  refine ⟨t, sl, st2, htt, hget, hco, ?_, ?_, hsched2, hldt2⟩
  · unfold carece.loopBody
    rw [hphase]
    simp only [obind_some, hpop, hco]
  · obtain ⟨hlt, hgeq⟩ := List.get?_eq_some.mp hget
    have hldtle : sl.last_departure_time ≤ st1.current_time := by
      have h2 := hinv1.2.2.1 e.sid hlt
      rw [hgeq] at h2
      exact h2
    rw [hcteq]
    omega

/-- Witness for C3 at a concrete input: port 1 Gbps, one slice (bandwidth
1 Gbps, max delay 100 ns) with a single 10-bit packet arriving at time 0;
after the admission phase the packet is popped and committed with start 0
and end 10. -/
theorem C3_commit_semantics_witness :
    (0 : ℚ) < 1 ∧
    carece.phaseAB c3Init = some c3Mid ∧
    popMin c3Mid.ready = some (c3Entry, []) ∧
    ∃ (t : ℤ) (sl : Slice) (st2 : carece.SState),
      calculate_transmission_time c3Mid.port_bandwidth c3Entry.psize = some t ∧
      c3Mid.slices.get? c3Entry.sid = some sl ∧
      carece.commitOn c3Mid c3Entry [] = some st2 ∧
      carece.loopBody c3Init = some (.cont st2) ∧
      st2.current_time = max c3Mid.current_time
        (max c3Entry.arr sl.last_departure_time) + t ∧
      st2.scheduled_packets = c3Mid.scheduled_packets ++
        [(st2.current_time, c3Entry.sid, c3Entry.pid)] ∧
      (st2.slices.get? c3Entry.sid).map Slice.last_departure_time =
        some st2.current_time :=
  ⟨by norm_num, c3_phase, c3_pop,
    C3_commit_semantics 1 c3Data (by norm_num) c3_sizes c3Init c3Mid
      Relation.ReflTransGen.refl c3_phase c3Entry [] c3_pop⟩

/-- C4 (amended): the original claim is false — the schedule log of
huaweicarece.py can list a slice's packets with decreasing `packetId`
(see the counterexample) — but every logged `(sliceId, packetId)` pair
does refer to a real, admitted packet of the input: in every state
reachable from a well-formed initial state, each log entry's slice index
is in range and its packet index is below that slice's packet count. -/
theorem C4_logged_pairs_valid (bw : ℚ) (data : List carece.SliceInput)
    (hbw : 0 < bw) (hsz : ∀ d ∈ data, ∀ q ∈ d.pkts, 0 ≤ q.2)
    (st : carece.SState) (hr : carece.Reaches (carece.initState bw data) st) :
    ∀ tr ∈ st.scheduled_packets, ∃ h : tr.2.1 < st.slices.length,
      tr.2.2 < (st.slices.get ⟨tr.2.1, h⟩).packets.length := by
  obtain ⟨hinv, _⟩ := carece.reaches_inv _ _ (carece.init_inv bw data hbw hsz) hr
  intro tr htr
  obtain ⟨hB, hok, hldt, hcount, hconsR, hconsD⟩ := hinv
  have hmem : tripPair tr ∈ carece.pairsOf st := by
    unfold carece.pairsOf
    exact List.mem_append.mpr (Or.inr (List.mem_map_of_mem tripPair htr))
  have hpos : 0 < (carece.pairsOf st).count (tripPair tr) :=
    List.count_pos_iff_mem.mpr hmem
  rw [hcount (tripPair tr)] at hpos
  by_cases hc : (tripPair tr).1 < st.slices.length ∧
      (tripPair tr).2 < carece.cursorAt st (tripPair tr).1
  · have h1 : tr.2.1 < st.slices.length := hc.1
    refine ⟨h1, ?_⟩
    have h2 : tr.2.2 < carece.cursorAt st tr.2.1 := hc.2
    have hcurs : carece.cursorAt st tr.2.1 =
        (st.slices.get ⟨tr.2.1, h1⟩).current_packet_idx := by
      show ((st.slices.get? tr.2.1).map Slice.current_packet_idx).getD 0 = _
      rw [List.get?_eq_get h1]
      rfl
    have hbound := (hok tr.2.1 h1).2.1
    omega
  · rw [if_neg hc] at hpos
    exact absurd hpos (by norm_num)

/-- Witness for C4 (amended): on the one-packet input, the final log
`[(10, 0, 0)]` is reached and its single entry points at slice 0,
packet 0, which exists. -/
theorem C4_logged_pairs_valid_witness :
    carece.Reaches (carece.initState 1 c3Data) c3Fin ∧
    ∃ h : (0 : ℕ) < c3Fin.slices.length,
      (0 : ℕ) < (c3Fin.slices.get ⟨0, h⟩).packets.length := by
  have hr : carece.Reaches (carece.initState 1 c3Data) c3Fin :=
    Relation.ReflTransGen.single c3_step
  refine ⟨hr, ?_⟩
  exact C4_logged_pairs_valid 1 c3Data (by norm_num) c3_sizes c3Fin hr
    (10, 0, 0) (by simp [c3Fin])

/-- C5 (positive half): when the event loop does terminate, every packet
submitted to the scheduler appears in the schedule log — on termination
the ReadyQueue and DeferralSet are empty and every cursor has passed every
packet, so the exactly-once accounting places each `(sliceId, packetId)`
pair in the log. -/
theorem C5_terminating_run_commits_all (bw : ℚ) (data : List carece.SliceInput)
    (hbw : 0 < bw) (hsz : ∀ d ∈ data, ∀ q ∈ d.pkts, 0 ≤ q.2)
    (n : ℕ) (stf : carece.SState)
    (hrun : carece.run n (carece.initState bw data) = .finished stf) :
    ∀ (i : ℕ) (hi : i < data.length) (j : ℕ),
      j < (data.get ⟨i, hi⟩).pkts.length →
      ((i, j) : ℕ × ℕ) ∈ stf.scheduled_packets.map tripPair := by
  obtain ⟨st1, hr, hhalt⟩ := carece.run_finished_dest n _ stf hrun
  obtain ⟨hinv1, hlens1⟩ := carece.reaches_inv _ _ (carece.init_inv bw data hbw hsz) hr
  obtain ⟨hinvf, hlensf, hready, hdel, hcurs⟩ := carece.halt_dest st1 stf hinv1 hhalt
  have hlens : carece.sliceLens stf = data.map (fun d => d.pkts.length) := by
    rw [hlensf, hlens1, carece.sliceLens_init]
  intro i hi j hj
  have hlenstf : stf.slices.length = data.length := by
    have h2 := congrArg List.length hlens
    simpa [carece.sliceLens] using h2
  have hif : i < stf.slices.length := by omega
  have hpl : (stf.slices.get ⟨i, hif⟩).packets.length =
      (data.get ⟨i, hi⟩).pkts.length := by
    have h2 := congrArg (fun l => l.get? i) hlens
    simp only [carece.sliceLens, List.get?_map] at h2
    rw [List.get?_eq_get hif, List.get?_eq_get hi] at h2
    simpa using h2
  obtain ⟨hB, hok, hldt, hcount, hconsR, hconsD⟩ := hinvf
  have hcnt := hcount ((i, j) : ℕ × ℕ)
  have hcc : carece.cursorAt stf i = (stf.slices.get ⟨i, hif⟩).current_packet_idx := by
    show ((stf.slices.get? i).map Slice.current_packet_idx).getD 0 = _
    rw [List.get?_eq_get hif]
    rfl
  have hc2 := hcurs i hif
  have hcondP : ((i, j) : ℕ × ℕ).1 < stf.slices.length ∧
      ((i, j) : ℕ × ℕ).2 < carece.cursorAt stf ((i, j) : ℕ × ℕ).1 := by
    refine ⟨hif, ?_⟩
    show j < carece.cursorAt stf i
    omega
  rw [if_pos hcondP] at hcnt
  have hposc : 0 < (carece.pairsOf stf).count ((i, j) : ℕ × ℕ) := by omega
  have hmem : ((i, j) : ℕ × ℕ) ∈ carece.pairsOf stf :=
    List.count_pos_iff_mem.mp hposc
  unfold carece.pairsOf at hmem
  rw [hready, hdel] at hmem
  simpa using hmem

/-- Witness for C5's theorem: the one-packet run finishes in two
iterations and its packet `(0, 0)` is in the log. -/
theorem C5_terminating_run_commits_all_witness :
    carece.run 2 (carece.initState 1 c3Data) = .finished c3Fin ∧
    ((0, 0) : ℕ × ℕ) ∈ c3Fin.scheduled_packets.map tripPair :=
  ⟨c3_run,
    C5_terminating_run_commits_all 1 c3Data (by norm_num) c3_sizes 2 c3Fin c3_run
      0 (by norm_num [c3Data]) 0 (by norm_num [c3Data])⟩

/-- C10: in the schedule log of every terminating run from a well-formed
input, each `(sliceId, packetId)` pair appears at most once — the
exactly-once accounting across ReadyQueue, DeferralSet and log bounds
every pair's log count by one. -/
theorem C10_no_duplicate_commits (bw : ℚ) (data : List carece.SliceInput)
    (hbw : 0 < bw) (hsz : ∀ d ∈ data, ∀ q ∈ d.pkts, 0 ≤ q.2)
    (n : ℕ) (stf : carece.SState)
    (hrun : carece.run n (carece.initState bw data) = .finished stf) :
    (stf.scheduled_packets.map tripPair).Nodup := by
  obtain ⟨st1, hr, hhalt⟩ := carece.run_finished_dest n _ stf hrun
  obtain ⟨hinv1, _⟩ := carece.reaches_inv _ _ (carece.init_inv bw data hbw hsz) hr
  obtain ⟨hinvf, _, _, _, _⟩ := carece.halt_dest st1 stf hinv1 hhalt
  apply nodup_of_count_le_one
  intro pr
  have hcnt := hinvf.2.2.2.1 pr
  have hle : (stf.scheduled_packets.map tripPair).count pr ≤
      (carece.pairsOf stf).count pr := by
    unfold carece.pairsOf
    simp only [List.count_append]
    omega
  rw [hcnt] at hle
  by_cases hc : pr.1 < stf.slices.length ∧ pr.2 < carece.cursorAt stf pr.1
  · rw [if_pos hc] at hle
    exact hle
  · rw [if_neg hc] at hle
    omega

/-- Witness for C10: the one-packet run's log pairs `[(0, 0)]` are
duplicate-free. -/
theorem C10_no_duplicate_commits_witness :
    carece.run 2 (carece.initState 1 c3Data) = .finished c3Fin ∧
    (c3Fin.scheduled_packets.map tripPair).Nodup :=
  ⟨c3_run,
    C10_no_duplicate_commits 1 c3Data (by norm_num) c3_sizes 2 c3Fin c3_run⟩
